import Mathlib

/-!
# Verification of the WhatLunch auction-optimization core

Shallow embedding of the decision-making engine of the repository
(`project/api/server/`): the MCTS planner state machine (`optimizer.py`),
the bid-cap estimator (`bidcap_engine.py`), the greedy purchase allocator
(`purchase_allocator.py`) and the reoptimization feedback step
(`fastapi_app.py`).  Numbers are modelled as `Int`/`ℚ`; Python's `int()`
truncation and numpy's half-to-even rounding are modelled explicitly.
-/

namespace WhatLunch

/-- Python `int(x)` applied to a nonnegative-or-negative rational:
truncation toward zero. -/
def pyInt (q : ℚ) : ℤ := if 0 ≤ q then ⌊q⌋ else ⌈q⌉

/-- Python 3 / numpy `round(x)` to an integer: round half to even. -/
def npRound (q : ℚ) : ℤ :=
  let f := ⌊q⌋
  let r := q - (f : ℚ)
  if r < 1/2 then f
  else if 1/2 < r then f + 1
  else if Even f then f else f + 1

/-- Python dict membership+lookup over an association list
(first binding wins, as dict keys are unique). -/
def alookup {α β : Type} [DecidableEq α] (k : α) : List (α × β) → Option β
  | [] => none
  | kv :: rest => if kv.1 = k then some kv.2 else alookup k rest

/-- Python dict assignment `d[k] = v`: update the binding in place, or
append a new one (dict insertion order). -/
def aset {α β : Type} [DecidableEq α] (k : α) (v : β) :
    List (α × β) → List (α × β)
  | [] => [(k, v)]
  | kv :: rest => if kv.1 = k then (k, v) :: rest else kv :: aset k v rest

theorem alookup_aset {α β : Type} [DecidableEq α] (k k' : α) (v : β) :
    ∀ l : List (α × β),
      alookup k' (aset k v l) = if k = k' then some v else alookup k' l
  | [] => by
    by_cases h : k = k' <;> simp [aset, alookup, h]
  | kv :: rest => by
    rw [aset]
    split
    next hk =>
      rw [alookup]
      by_cases h : k = k'
      · rw [if_pos h, if_pos h]
      · rw [if_neg h, if_neg h, alookup, if_neg (fun hc => h (hk ▸ hc))]
    next hk =>
      rw [alookup, alookup]
      by_cases hkv : kv.1 = k'
      · have hne : ¬ k = k' := fun hc => hk (hc.symm ▸ hkv)
        rw [if_pos hkv, if_neg hne, if_pos hkv]
      · rw [if_neg hkv, alookup_aset k k' v rest]
        by_cases h : k = k'
        · rw [if_pos h, if_pos h]
        · rw [if_neg h, if_neg h, if_neg hkv]

theorem pyInt_le_self {q : ℚ} (h : 0 ≤ q) : (pyInt q : ℚ) ≤ q := by
  simp only [pyInt, if_pos h]
  exact Int.floor_le q

theorem pyInt_nonpos {q : ℚ} (h : q < 0) : pyInt q ≤ 0 := by
  simp only [pyInt, if_neg (not_le.mpr h)]
  exact Int.ceil_le.mpr (by exact_mod_cast h.le)

/-! ## MCTS planner state (`optimizer.py`) -/

/-- Structure `AuctionItem` from `optimizer.py` (the fields the planner reads). -/
structure AuctionItem where
  listing_id : String
  brand : String
  model : String
  year : ℤ
  mileage_km : ℤ
  auction_house : String
  min_price : ℤ
  date : String
deriving DecidableEq, Repr, Inhabited

/-- Structure `AuctionState` from `optimizer.py`. -/
structure AuctionState where
  current_budget : ℤ
  remaining_targets : List (String × ℤ)
  available_auctions : List AuctionItem
  current_inventory : List (String × ℤ)
  time_step : ℕ
deriving DecidableEq, Repr

/-- Structure `AuctionAction` from `optimizer.py` (`bid_amount = 0` means skip). -/
structure AuctionAction where
  auction_id : String
  bid_amount : ℤ
  action_type : String
deriving DecidableEq, Repr

/-- Method `AuctionState.get_model_key`: the category key built as brand, model and year joined by underscores. -/
def modelKey (a : AuctionItem) : String :=
  a.brand ++ "_" ++ a.model ++ "_" ++ toString a.year

/-- Source expression `sum(self.remaining_targets.values())`. -/
def targetsSum (s : AuctionState) : ℤ :=
  (s.remaining_targets.map (·.2)).sum

/-- Method `AuctionState.is_terminal`. -/
def AuctionState.is_terminal (s : AuctionState) : Bool :=
  decide (targetsSum s ≤ 0) || s.available_auctions.isEmpty ||
    decide (s.current_budget ≤ 0)

/-- Source statement `new_state.remaining_targets[k] = max(0, new_state.remaining_targets[k] - 1)`,
guarded by `if k in new_state.remaining_targets`. -/
def decTarget (k : String) (l : List (String × ℤ)) : List (String × ℤ) :=
  if (alookup k l).isSome then
    l.map (fun kv => if kv.1 = k then (kv.1, max 0 (kv.2 - 1)) else kv)
  else l

/-- Source statement `new_state.current_inventory[k] = new_state.current_inventory.get(k, 0) + 1`. -/
def incInv (k : String) (l : List (String × ℤ)) : List (String × ℤ) :=
  aset k ((alookup k l).getD 0 + 1) l

/-- Method `MCTSAuctionOptimizer._apply_action`.  The two random draws are passed
explicitly: `win` is the outcome of `random.random() < win_prob`, and `u` is
the draw of `random.uniform(0.85, 1.0)` used for the settlement price. -/
def applyAction (s : AuctionState) (a : AuctionAction) (win : Bool) (u : ℚ) :
    AuctionState :=
  match s.available_auctions with
  | [] => s
  | cur :: rest =>
    let key := modelKey cur
    let s1 : AuctionState :=
      { s with available_auctions := rest, time_step := s.time_step + 1 }
    if a.bid_amount = 0 then s1
    else if win then
      let actual : ℤ := max (pyInt ((a.bid_amount : ℚ) * u)) cur.min_price
      { s1 with
        current_budget := s1.current_budget - actual
        current_inventory := incInv key s1.current_inventory
        remaining_targets := decTarget key s1.remaining_targets }
    else s1

/-- Count of `[a for a in available_auctions if model_key(a) in remaining_targets
and remaining_targets[model_key(a)] > 0]` used by the urgency ratio. -/
def relevantCount (s : AuctionState) : ℕ :=
  (s.available_auctions.filter
    (fun a => decide (0 < (alookup (modelKey a) s.remaining_targets).getD 0))).length

/-- Source expression `urgency_factor = remaining_total / max(remaining_auctions, 1)`. -/
def urgencyFactor (s : AuctionState) : ℚ :=
  (targetsSum s : ℚ) / ((max (relevantCount s) 1 : ℕ) : ℚ)

/-- Percentiles and labels used when `urgency_factor >= 1.0`. -/
def aggressivePts : List (ℚ × String) :=
  [(2/5, "moderate"), (3/5, "aggressive"), (4/5, "very_aggressive"),
   (19/20, "desperate")]

/-- Percentiles and labels used when `urgency_factor < 1.0`. -/
def normalPts : List (ℚ × String) :=
  [(1/4, "conservative"), (1/2, "moderate"), (3/4, "aggressive"),
   (9/10, "very_aggressive")]

/-- Fallback bid multipliers used when no historical data exists. -/
def fallbackMults : List (ℚ × String) :=
  [(11/10, "conservative"), (13/10, "moderate"), (3/2, "aggressive"),
   (9/5, "very_aggressive")]

/-- Source expression `idx = min(int(n * percentile), n - 1)`. -/
def pickIdx (n : ℕ) (p : ℚ) : ℕ := min (pyInt ((n : ℚ) * p)).toNat (n - 1)

/-- The loop over `zip(percentiles, action_types)` building bid actions with
price de-duplication (`used_prices`), threading the loop state
`(used_prices, untried_actions)`. -/
def ppLoop (lid : String) (minP : ℤ) (sorted : List ℤ) :
    List (ℚ × String) → List ℤ × List AuctionAction →
      List ℤ × List AuctionAction
  | [], st => st
  | pt :: pts, st =>
    let bid := sorted.getD (pickIdx sorted.length pt.1) 0
    if bid ∉ st.1 ∧ minP ≤ bid then
      ppLoop lid minP sorted pts (bid :: st.1, st.2 ++ [⟨lid, bid, pt.2⟩])
    else ppLoop lid minP sorted pts st

/-- The bid actions produced from a sorted affordable-price list for a
percentile/label list. -/
def percentileActions (lid : String) (minP : ℤ) (sorted : List ℤ)
    (pts : List (ℚ × String)) : List ℤ × List AuctionAction :=
  ppLoop lid minP sorted pts ([], [])

/-- The skip action `AuctionAction(listing_id, 0, "skip")`. -/
def skipAction (cur : AuctionItem) : AuctionAction := ⟨cur.listing_id, 0, "skip"⟩

/-- The no-historical-data branch of `_initialize_actions`: fallback
multipliers on the minimum price, bounded by
`max_affordable = min(budget, min_bid * 2.0)`. -/
def fallbackActions (lid : String) (minBid : ℤ) (budget : ℤ) :
    List AuctionAction :=
  if (minBid : ℚ) ≤ min (budget : ℚ) ((minBid : ℚ) * 2) then
    fallbackMults.filterMap (fun mt =>
      if ((pyInt ((minBid : ℚ) * mt.1) : ℤ) : ℚ) ≤
          min (budget : ℚ) ((minBid : ℚ) * 2) then
        some ⟨lid, pyInt ((minBid : ℚ) * mt.1), mt.2⟩
      else none)
  else []

/-- Source expression `sorted_prices = sorted(affordable_prices)` where
`affordable_prices = [p for p in valid_prices if p <= budget]` and
`valid_prices = [p for p in historical_prices if p >= min_price]`. -/
def affordableSorted (s : AuctionState) (cur : AuctionItem) (hist : List ℤ) :
    List ℤ :=
  ((hist.filter (fun p => cur.min_price ≤ p)).filter
    (fun p => p ≤ s.current_budget)).insertionSort (· ≤ ·)

/-- The historical-data branch of `_initialize_actions`: percentile bids over
the sorted affordable prices, a skip unless urgency is high, or the
`min_price` action when nothing affordable remains. -/
def histActions (s : AuctionState) (cur : AuctionItem) (hist : List ℤ) :
    List AuctionAction :=
  if ((hist.filter (fun p => cur.min_price ≤ p)).isEmpty : Bool) then []
  else if (((hist.filter (fun p => cur.min_price ≤ p)).filter
      (fun p => p ≤ s.current_budget)).isEmpty : Bool) then
    if cur.min_price ≤ s.current_budget then
      [⟨cur.listing_id, cur.min_price, "min_price"⟩]
    else []
  else
    (percentileActions cur.listing_id cur.min_price
      (affordableSorted s cur hist)
      (if 1 ≤ urgencyFactor s then aggressivePts else normalPts)).2 ++
      (if urgencyFactor s < 4/5 then [skipAction cur] else [])

/-- Method `MCTSNode._initialize_actions`, as a function of the node's state and of
the historical price pool `hist` returned by `_get_historical_bid_prices` for
the head-of-queue item. -/
def initActions (s : AuctionState) (hist : List ℤ) : List AuctionAction :=
  if s.is_terminal then []
  else if s.available_auctions.isEmpty then []
  else if 0 < (alookup (modelKey s.available_auctions.headI)
      s.remaining_targets).getD 0 then
    if hist.isEmpty then
      fallbackActions s.available_auctions.headI.listing_id
        s.available_auctions.headI.min_price s.current_budget
    else histActions s s.available_auctions.headI hist
  else [skipAction s.available_auctions.headI]

/-- The randomized heuristic rollout policy of `MCTSAuctionOptimizer._simulate`
for the head-of-queue item, with the drawn bid multiplier `mult` passed
explicitly. -/
def rolloutAction (s : AuctionState) (cur : AuctionItem) (mult : ℚ) :
    AuctionAction :=
  if 0 < (alookup (modelKey cur) s.remaining_targets).getD 0 ∧
      cur.min_price ≤ s.current_budget then
    ⟨cur.listing_id, min s.current_budget (pyInt ((cur.min_price : ℚ) * mult)),
      "simulation"⟩
  else skipAction cur

/-- C4: `is_terminal(s)` holds iff the queue is empty, or the budget is `≤ 0`,
or the sum of the remaining per-category targets is `≤ 0`. -/
theorem C4_is_terminal_iff (s : AuctionState) :
    s.is_terminal = true ↔
      s.available_auctions = [] ∨ s.current_budget ≤ 0 ∨ targetsSum s ≤ 0 := by
  simp only [AuctionState.is_terminal, Bool.or_eq_true, decide_eq_true_eq,
    List.isEmpty_iff]
  tauto

theorem applyAction_eq_of_cons {s : AuctionState} {cur : AuctionItem}
    {rest : List AuctionItem} (a : AuctionAction) (win : Bool) (u : ℚ)
    (hq : s.available_auctions = cur :: rest) :
    applyAction s a win u =
      (let s1 : AuctionState :=
        { s with available_auctions := rest, time_step := s.time_step + 1 }
      if a.bid_amount = 0 then s1
      else if win then
        { s1 with
          current_budget :=
            s1.current_budget - max (pyInt ((a.bid_amount : ℚ) * u)) cur.min_price
          current_inventory := incInv (modelKey cur) s1.current_inventory
          remaining_targets := decTarget (modelKey cur) s1.remaining_targets }
      else s1) := by
  unfold applyAction
  rw [hq]

/-- C10: applying any action to a state with a non-empty queue pops exactly the
head of the queue and advances the step counter; a skip, or a bid whose random
win draw fails, leaves budget, targets and inventory untouched. -/
theorem C10_apply_action_frame (s : AuctionState) (a : AuctionAction)
    (win : Bool) (u : ℚ) (h : s.available_auctions ≠ []) :
    (applyAction s a win u).available_auctions = s.available_auctions.tail ∧
    (applyAction s a win u).time_step = s.time_step + 1 ∧
    ((a.bid_amount = 0 ∨ win = false) →
      (applyAction s a win u).current_budget = s.current_budget ∧
      (applyAction s a win u).remaining_targets = s.remaining_targets ∧
      (applyAction s a win u).current_inventory = s.current_inventory) := by
  cases hq : s.available_auctions with
  | nil => exact absurd hq h
  | cons cur rest =>
    rw [applyAction_eq_of_cons a win u hq]
    by_cases hb : a.bid_amount = 0
    · simp [hb]
    · cases win with
      | false => simp [hb]
      | true => simp [hb]

/-- Witness for `C10_apply_action_frame` at a concrete state and action. -/
theorem C10_apply_action_frame_witness :
    (applyAction ⟨50, [("b_m_2020", 2)],
        [⟨"L1", "b", "m", 2020, 10000, "h", 10, "d"⟩], [], 0⟩
      ⟨"L1", 20, "moderate"⟩ false (9/10)).current_budget = 50 :=
  ((C10_apply_action_frame ⟨50, [("b_m_2020", 2)],
      [⟨"L1", "b", "m", 2020, 10000, "h", 10, "d"⟩], [], 0⟩
      ⟨"L1", 20, "moderate"⟩ false (9/10) (by decide)).2.2
    (Or.inr rfl)).1

theorem applyAction_queue {s : AuctionState} {cur : AuctionItem}
    {rest : List AuctionItem} (a : AuctionAction) (win : Bool) (u : ℚ)
    (hq : s.available_auctions = cur :: rest) :
    (applyAction s a win u).available_auctions = rest ∧
    (applyAction s a win u).time_step = s.time_step + 1 := by
  rw [applyAction_eq_of_cons a win u hq]
  by_cases hb : a.bid_amount = 0 <;> cases win <;> simp [hb]

theorem pickIdx_lt {n : ℕ} (hn : n ≠ 0) (p : ℚ) : pickIdx n p < n :=
  lt_of_le_of_lt (min_le_right _ _) (Nat.pred_lt hn)

theorem getD_mem_of_lt {l : List ℤ} {i : ℕ} (h : i < l.length) :
    l.getD i 0 ∈ l := by
  rw [List.getD_eq_getElem l 0 h]
  exact List.getElem_mem h

/-- Every action the percentile loop adds is a bid on a price taken from the
sorted list, at least the minimum price, labelled by one of the percentile
labels. -/
theorem ppLoop_mem {lid : String} {minP : ℤ} {sorted : List ℤ}
    (hs : sorted ≠ []) :
    ∀ (pts : List (ℚ × String)) (st : List ℤ × List AuctionAction)
      (a : AuctionAction), a ∈ (ppLoop lid minP sorted pts st).2 →
      a ∈ st.2 ∨ (a.bid_amount ∈ sorted ∧ minP ≤ a.bid_amount ∧
        ∃ pt ∈ pts, a.action_type = pt.2)
  | [], _, _, ha => Or.inl ha
  | pt :: pts, st, a, ha => by
    rw [ppLoop] at ha
    split at ha
    next hcond =>
      rcases ppLoop_mem hs pts _ a ha with h | h
      · rcases List.mem_append.mp h with h' | h'
        · exact Or.inl h'
        · simp only [List.mem_singleton] at h'
          subst h'
          refine Or.inr ⟨?_, hcond.2, pt, List.mem_cons_self .., rfl⟩
          exact getD_mem_of_lt
            (pickIdx_lt (fun h0 => hs (List.eq_nil_of_length_eq_zero h0)) _)
      · obtain ⟨pt', hpt', hlab⟩ := h.2.2
        exact Or.inr ⟨h.1, h.2.1, pt', List.mem_cons_of_mem _ hpt', hlab⟩
    next =>
      rcases ppLoop_mem hs pts _ a ha with h | h
      · exact Or.inl h
      · obtain ⟨pt', hpt', hlab⟩ := h.2.2
        exact Or.inr ⟨h.1, h.2.1, pt', List.mem_cons_of_mem _ hpt', hlab⟩

theorem fallbackActions_bid_le {lid : String} {minBid budget : ℤ}
    {a : AuctionAction} (ha : a ∈ fallbackActions lid minBid budget) :
    a.bid_amount ≤ budget ∧ minBid ≤ budget := by
  unfold fallbackActions at ha
  split at ha
  case isTrue hmaxaff =>
    rw [List.mem_filterMap] at ha
    obtain ⟨mt, _, heq⟩ := ha
    split at heq
    case isTrue hble =>
      cases heq
      constructor
      · exact_mod_cast le_trans hble (min_le_left _ _)
      · exact_mod_cast le_trans hmaxaff (min_le_left _ _)
    case isFalse => cases heq
  case isFalse => exact absurd ha (List.not_mem_nil a)

theorem histActions_bid_le {s : AuctionState} {cur : AuctionItem}
    {hist : List ℤ} {a : AuctionAction} (ha : a ∈ histActions s cur hist) :
    a.bid_amount = 0 ∨
      (a.bid_amount ≤ s.current_budget ∧ cur.min_price ≤ s.current_budget) := by
  unfold histActions at ha
  split at ha
  · exact absurd ha (List.not_mem_nil a)
  split at ha
  case isTrue hae =>
    split at ha
    case isTrue hmin =>
      simp only [List.mem_singleton] at ha
      subst ha
      exact Or.inr ⟨hmin, hmin⟩
    case isFalse => exact absurd ha (List.not_mem_nil a)
  case isFalse hane =>
    rcases List.mem_append.mp ha with hp | hsk
    · -- percentile bid actions
      have hasort :
          (hist.filter (fun p => cur.min_price ≤ p)).filter
              (fun p => p ≤ s.current_budget) ≠ [] := by
        intro h0
        rw [h0] at hane
        exact hane rfl
      have hsne :
          (((hist.filter (fun p => cur.min_price ≤ p)).filter
              (fun p => p ≤ s.current_budget)).insertionSort (· ≤ ·)) ≠ [] := by
        intro h0
        have := List.length_insertionSort (r := (· ≤ ·))
          ((hist.filter (fun p => cur.min_price ≤ p)).filter
            (fun p => p ≤ s.current_budget))
        rw [h0] at this
        exact hasort (List.eq_nil_of_length_eq_zero this.symm)
      rcases ppLoop_mem hsne _ _ a hp with h | h
      · exact absurd h (List.not_mem_nil a)
      · have hmem : a.bid_amount ∈
            (hist.filter (fun p => cur.min_price ≤ p)).filter
              (fun p => p ≤ s.current_budget) :=
          (List.mem_insertionSort (· ≤ ·)).mp h.1
        have hb := List.of_mem_filter hmem
        refine Or.inr ⟨by simpa using hb, ?_⟩
        exact le_trans h.2.1 (by simpa using hb)
    · split at hsk
      · simp only [List.mem_singleton] at hsk
        subst hsk
        exact Or.inl rfl
      · exact absurd hsk (List.not_mem_nil a)

/-- Any bid action generated by `_initialize_actions` bids at most the current
budget, on an item whose minimum price is within budget. -/
theorem initActions_bid_le {s : AuctionState} {hist : List ℤ}
    {a : AuctionAction} (ha : a ∈ initActions s hist) :
    a.bid_amount = 0 ∨
      (a.bid_amount ≤ s.current_budget ∧
        s.available_auctions.headI.min_price ≤ s.current_budget) := by
  unfold initActions at ha
  split at ha
  · exact absurd ha (List.not_mem_nil a)
  split at ha
  · exact absurd ha (List.not_mem_nil a)
  split at ha
  case isTrue =>
    split at ha
    · exact Or.inr (fallbackActions_bid_le ha)
    · exact histActions_bid_le ha
  case isFalse =>
    simp only [List.mem_singleton] at ha
    subst ha
    exact Or.inl rfl

theorem rolloutAction_bid_le (s : AuctionState) (cur : AuctionItem) (mult : ℚ) :
    (rolloutAction s cur mult).bid_amount = 0 ∨
      ((rolloutAction s cur mult).bid_amount ≤ s.current_budget ∧
        cur.min_price ≤ s.current_budget) := by
  unfold rolloutAction
  split
  case isTrue h => exact Or.inr ⟨min_le_left _ _, h.2⟩
  case isFalse => exact Or.inl rfl

/-- Truncating `bid * u` with `0 < u ≤ 1` never exceeds a budget that covers
the bid, provided the budget is nonnegative. -/
theorem pyInt_mul_le_budget {bid budget : ℤ} {u : ℚ} (hbud : 0 ≤ budget)
    (hb : bid ≤ budget) (hu0 : 0 < u) (hu1 : u ≤ 1) :
    pyInt ((bid : ℚ) * u) ≤ budget := by
  by_cases h : 0 ≤ (bid : ℚ) * u
  · have hbid0 : (0 : ℚ) ≤ (bid : ℚ) := (mul_nonneg_iff_of_pos_right hu0).mp h
    have hle : (bid : ℚ) * u ≤ (bid : ℚ) := by
      calc (bid : ℚ) * u ≤ (bid : ℚ) * 1 := by
            exact mul_le_mul_of_nonneg_left hu1 hbid0
        _ = (bid : ℚ) := mul_one _
    have : pyInt ((bid : ℚ) * u) ≤ bid := by
      simp only [pyInt, if_pos h]
      calc ⌊(bid : ℚ) * u⌋ ≤ ⌊(bid : ℚ)⌋ := Int.floor_le_floor hle
        _ = bid := Int.floor_intCast bid
    exact le_trans this hb
  · exact le_trans (pyInt_nonpos (not_le.mp h)) hbud

theorem applyAction_budget_nonneg {s : AuctionState} {cur : AuctionItem}
    {rest : List AuctionItem} {a : AuctionAction} (win : Bool) {u : ℚ}
    (hq : s.available_auctions = cur :: rest)
    (h0 : 0 ≤ s.current_budget)
    (hb : a.bid_amount = 0 ∨
      (a.bid_amount ≤ s.current_budget ∧ cur.min_price ≤ s.current_budget))
    (hu0 : 0 < u) (hu1 : u ≤ 1) :
    0 ≤ (applyAction s a win u).current_budget := by
  rw [applyAction_eq_of_cons a win u hq]
  by_cases hz : a.bid_amount = 0
  · simpa [hz] using h0
  · cases win with
    | false => simpa [hz] using h0
    | true =>
      rcases hb with hb | ⟨hble, hmin⟩
      · exact absurd hb hz
      · simp only [hz, if_false, if_true]
        have hactual : max (pyInt ((a.bid_amount : ℚ) * u)) cur.min_price ≤
            s.current_budget :=
          max_le (pyInt_mul_le_budget h0 hble hu0 hu1) hmin
        simpa using sub_nonneg.mpr hactual

theorem decTarget_nonneg {l : List (String × ℤ)} {k : String}
    (h : ∀ kv ∈ l, 0 ≤ kv.2) : ∀ kv ∈ decTarget k l, 0 ≤ kv.2 := by
  unfold decTarget
  split
  · intro kv hkv
    rw [List.mem_map] at hkv
    obtain ⟨kv0, hkv0, heq⟩ := hkv
    by_cases hk : kv0.1 = k
    · rw [if_pos hk] at heq
      subst heq
      exact le_max_left 0 _
    · rw [if_neg hk] at heq
      subst heq
      exact h kv0 hkv0
  · exact h

theorem applyAction_targets_nonneg {s : AuctionState} {a : AuctionAction}
    {win : Bool} {u : ℚ} (h : ∀ kv ∈ s.remaining_targets, 0 ≤ kv.2) :
    ∀ kv ∈ (applyAction s a win u).remaining_targets, 0 ≤ kv.2 := by
  cases hq : s.available_auctions with
  | nil =>
    unfold applyAction
    rw [hq]
    exact h
  | cons cur rest =>
    rw [applyAction_eq_of_cons a win u hq]
    by_cases hz : a.bid_amount = 0
    · simpa [hz] using h
    · cases win with
      | false => simpa [hz] using h
      | true =>
        simp only [hz, if_false, if_true]
        exact decTarget_nonneg h

theorem initActions_ne_nil_queue {s : AuctionState} {hist : List ℤ}
    {a : AuctionAction} (ha : a ∈ initActions s hist) :
    s.available_auctions ≠ [] := by
  intro hq
  unfold initActions at ha
  rw [hq] at ha
  simp only [List.isEmpty_nil, if_true] at ha
  split at ha <;> exact absurd ha (List.not_mem_nil a)

/-- One decision step of the planner: the state transition produced by
`_apply_action` on an action generated either by `_initialize_actions` or by
the rollout policy of `_simulate`, with the random draws quantified. -/
inductive GenStep : AuctionState → AuctionState → Prop where
  | planner (s : AuctionState) (hist : List ℤ) (a : AuctionAction) (win : Bool)
      (u : ℚ) (ha : a ∈ initActions s hist) (hu0 : 17/20 ≤ u) (hu1 : u ≤ 1) :
      GenStep s (applyAction s a win u)
  | rollout (s : AuctionState) (cur : AuctionItem) (rest : List AuctionItem)
      (mult : ℚ) (win : Bool) (u : ℚ)
      (hq : s.available_auctions = cur :: rest)
      (hterm : s.is_terminal = false) (hm1 : 1 ≤ mult) (hm2 : mult ≤ 17/10)
      (hu0 : 17/20 ≤ u) (hu1 : u ≤ 1) :
      GenStep s (applyAction s (rolloutAction s cur mult) win u)

/-- States reachable from `s0` by planner/rollout decision steps. -/
inductive Reachable (s0 : AuctionState) : AuctionState → Prop where
  | refl : Reachable s0 s0
  | step {s s' : AuctionState} : Reachable s0 s → GenStep s s' → Reachable s0 s'

theorem genStep_preserves {s s' : AuctionState} (h : GenStep s s')
    (hg : 0 ≤ s.current_budget ∧ ∀ kv ∈ s.remaining_targets, 0 ≤ kv.2) :
    0 ≤ s'.current_budget ∧ ∀ kv ∈ s'.remaining_targets, 0 ≤ kv.2 := by
  have hu85 : (0 : ℚ) < 17/20 := by norm_num
  cases h with
  | planner hist a win u ha hu0 hu1 =>
    obtain ⟨cur, rest, hq⟩ :
        ∃ cur rest, s.available_auctions = cur :: rest := by
      cases hc : s.available_auctions with
      | nil => exact absurd hc (initActions_ne_nil_queue ha)
      | cons cur rest => exact ⟨cur, rest, rfl⟩
    have hb := initActions_bid_le ha
    rw [hq] at hb
    simp only [List.headI] at hb
    exact ⟨applyAction_budget_nonneg win hq hg.1 hb (lt_of_lt_of_le hu85 hu0)
      hu1, applyAction_targets_nonneg hg.2⟩
  | rollout cur rest mult win u hq hterm hm1 hm2 hu0 hu1 =>
    exact ⟨applyAction_budget_nonneg win hq hg.1
      (rolloutAction_bid_le s cur mult) (lt_of_lt_of_le hu85 hu0) hu1,
      applyAction_targets_nonneg hg.2⟩

theorem genStep_queue {s s' : AuctionState} (h : GenStep s s') :
    s.available_auctions ≠ [] ∧
      s'.available_auctions = s.available_auctions.tail ∧
      s'.available_auctions.length + 1 = s.available_auctions.length := by
  obtain ⟨cur, rest, hq, a, win, u, heq⟩ :
      ∃ cur rest, s.available_auctions = cur :: rest ∧
        ∃ a win u, s' = applyAction s a win u := by
    cases h with
    | planner hist a win u ha _ _ =>
      cases hc : s.available_auctions with
      | nil => exact absurd hc (initActions_ne_nil_queue ha)
      | cons cur rest => exact ⟨cur, rest, rfl, a, win, u, rfl⟩
    | rollout cur rest mult win u hq _ _ _ _ _ =>
      exact ⟨cur, rest, hq, rolloutAction s cur mult, win, u, rfl⟩
  subst heq
  have hQ := applyAction_queue a win u hq
  refine ⟨by rw [hq]; exact List.cons_ne_nil cur rest, ?_, ?_⟩
  · rw [hQ.1, hq, List.tail_cons]
  · rw [hQ.1, hq]
    simp

/-- C5: from an initial state with nonnegative budget and nonnegative targets,
every state reached by planner-generated or rollout actions keeps the budget
and every per-category target nonnegative, and every applied action removes
exactly the head of the remaining queue (which therefore strictly shrinks and
is never reordered). -/
theorem C5_reachable_invariants (s0 : AuctionState)
    (h0 : 0 ≤ s0.current_budget)
    (ht0 : ∀ kv ∈ s0.remaining_targets, 0 ≤ kv.2) :
    (∀ s, Reachable s0 s →
      0 ≤ s.current_budget ∧ ∀ kv ∈ s.remaining_targets, 0 ≤ kv.2) ∧
    (∀ s s', GenStep s s' →
      s.available_auctions ≠ [] ∧
        s'.available_auctions = s.available_auctions.tail ∧
        s'.available_auctions.length + 1 = s.available_auctions.length) := by
  constructor
  · intro s hreach
    induction hreach with
    | refl => exact ⟨h0, ht0⟩
    | step _ hstep ih => exact genStep_preserves hstep ih
  · intro s s' hstep
    exact genStep_queue hstep

/-- Witness for `C5_reachable_invariants` at a concrete initial state. -/
theorem C5_reachable_invariants_witness :
    0 ≤ (⟨100, [("b_m_2020", 4)], [], [], 0⟩ : AuctionState).current_budget ∧
      ∀ kv ∈ (⟨100, [("b_m_2020", 4)], [], [], 0⟩ :
          AuctionState).remaining_targets, 0 ≤ kv.2 :=
  (C5_reachable_invariants ⟨100, [("b_m_2020", 4)], [], [], 0⟩
    (by decide) (by decide)).1 _ Reachable.refl

/-! ### Characterization of the percentile-bid loop (for action generation) -/

theorem ppLoop_snd_prices {lid : String} {minP : ℤ} {sorted : List ℤ} :
    ∀ (pts : List (ℚ × String)) (st : List ℤ × List AuctionAction),
      st.2.map (·.bid_amount) = st.1.reverse →
      (ppLoop lid minP sorted pts st).2.map (·.bid_amount) =
        (ppLoop lid minP sorted pts st).1.reverse
  | [], _, hst => hst
  | pt :: pts, st, hst => by
    rw [ppLoop]
    split
    next =>
      refine ppLoop_snd_prices pts _ ?_
      simp only [List.map_append, hst, List.reverse_cons, List.map_cons,
        List.map_nil]
    next => exact ppLoop_snd_prices pts st hst

theorem ppLoop_fst_nodup {lid : String} {minP : ℤ} {sorted : List ℤ} :
    ∀ (pts : List (ℚ × String)) (st : List ℤ × List AuctionAction),
      st.1.Nodup → (ppLoop lid minP sorted pts st).1.Nodup
  | [], _, hst => hst
  | pt :: pts, st, hst => by
    rw [ppLoop]
    split
    next hc => exact ppLoop_fst_nodup pts _ (List.nodup_cons.mpr ⟨hc.1, hst⟩)
    next => exact ppLoop_fst_nodup pts st hst

theorem ppLoop_fst_mem {lid : String} {minP : ℤ} {sorted : List ℤ} :
    ∀ (pts : List (ℚ × String)) (st : List ℤ × List AuctionAction) (b : ℤ),
      b ∈ (ppLoop lid minP sorted pts st).1 ↔
        b ∈ st.1 ∨ ∃ pt ∈ pts,
          b = sorted.getD (pickIdx sorted.length pt.1) 0 ∧ minP ≤ b
  | [], st, b => by simp [ppLoop]
  | pt :: pts, st, b => by
    rw [ppLoop]
    split
    next hc =>
      rw [ppLoop_fst_mem pts _ b,
        List.exists_mem_cons_iff
          (fun pt => b = sorted.getD (pickIdx sorted.length pt.1) 0 ∧ minP ≤ b)
          pt pts]
      simp only [List.mem_cons]
      constructor
      · rintro ((rfl | h) | h)
        · exact Or.inr (Or.inl ⟨rfl, hc.2⟩)
        · exact Or.inl h
        · exact Or.inr (Or.inr h)
      · rintro (h | (⟨rfl, _⟩ | h))
        · exact Or.inl (Or.inr h)
        · exact Or.inl (Or.inl rfl)
        · exact Or.inr h
    next hc =>
      rw [ppLoop_fst_mem pts st b,
        List.exists_mem_cons_iff
          (fun pt => b = sorted.getD (pickIdx sorted.length pt.1) 0 ∧ minP ≤ b)
          pt pts]
      rw [not_and_or, not_not] at hc
      constructor
      · rintro (h | h)
        · exact Or.inl h
        · exact Or.inr (Or.inr h)
      · rintro (h | (⟨rfl, hP⟩ | h))
        · exact Or.inl h
        · rcases hc with hc | hc
          · exact Or.inl hc
          · exact absurd hP hc
        · exact Or.inr h

theorem ppLoop_snd_labels {lid : String} {minP : ℤ} {sorted : List ℤ}
    (hs : sorted ≠ []) {pts : List (ℚ × String)} {a : AuctionAction}
    (ha : a ∈ (percentileActions lid minP sorted pts).2) :
    a.bid_amount ∈ sorted ∧ minP ≤ a.bid_amount ∧
      ∃ pt ∈ pts, a.action_type = pt.2 := by
  rcases ppLoop_mem hs pts ([], []) a ha with h | h
  · exact absurd h (List.not_mem_nil a)
  · exact h

theorem initActions_main_branch {s : AuctionState} {cur : AuctionItem}
    {rest : List AuctionItem} {hist : List ℤ}
    (hq : s.available_auctions = cur :: rest)
    (hterm : s.is_terminal = false)
    (htgt : 0 < (alookup (modelKey cur) s.remaining_targets).getD 0)
    (hhist : hist ≠ [])
    (haff : (hist.filter (fun p => cur.min_price ≤ p)).filter
      (fun p => p ≤ s.current_budget) ≠ []) :
    initActions s hist =
      (percentileActions cur.listing_id cur.min_price
        (affordableSorted s cur hist)
        (if 1 ≤ urgencyFactor s then aggressivePts else normalPts)).2 ++
        (if urgencyFactor s < 4/5 then [skipAction cur] else []) := by
  have hvalid : hist.filter (fun p => cur.min_price ≤ p) ≠ [] := by
    intro h0
    rw [h0] at haff
    exact haff rfl
  unfold initActions
  rw [hterm, hq]
  simp only [Bool.false_eq_true, if_false, List.isEmpty_cons, List.headI]
  rw [if_pos htgt, if_neg (fun h => hhist (List.isEmpty_iff.mp h))]
  unfold histActions
  rw [if_neg (fun h => hvalid (List.isEmpty_iff.mp h)),
    if_neg (fun h => haff (List.isEmpty_iff.mp h))]

theorem affordableSorted_ne_nil {s : AuctionState} {cur : AuctionItem}
    {hist : List ℤ}
    (haff : (hist.filter (fun p => cur.min_price ≤ p)).filter
      (fun p => p ≤ s.current_budget) ≠ []) :
    affordableSorted s cur hist ≠ [] := by
  intro h0
  have := List.length_insertionSort (r := (· ≤ ·))
    ((hist.filter (fun p => cur.min_price ≤ p)).filter
      (fun p => p ≤ s.current_budget))
  rw [show ((hist.filter (fun p => cur.min_price ≤ p)).filter
      (fun p => p ≤ s.current_budget)).insertionSort (· ≤ ·) =
        affordableSorted s cur hist from rfl, h0] at this
  exact haff (List.eq_nil_of_length_eq_zero this.symm)

theorem affordableSorted_mem {s : AuctionState} {cur : AuctionItem}
    {hist : List ℤ} {b : ℤ} (hb : b ∈ affordableSorted s cur hist) :
    b ∈ (hist.filter (fun p => cur.min_price ≤ p)).filter
      (fun p => p ≤ s.current_budget) :=
  (List.mem_insertionSort (· ≤ ·)).mp hb

/-- Concrete scheduled item for the C9 scenario. -/
def c9Item : AuctionItem := ⟨"L1", "b", "m", 2020, 30000, "h", 10, "d"⟩

/-- Concrete planner state for the C9 scenario: 4 remaining target units and 5
matching queued auctions, so `urgency_factor = 4/5 = 0.8`. -/
def c9State : AuctionState :=
  ⟨100, [("b_m_2020", 4)], [c9Item, c9Item, c9Item, c9Item, c9Item], [], 0⟩

/-- Concrete historical price pool for the C9 scenario (all valid and
affordable). -/
def c9Hist : List ℤ := [10, 12, 14, 16, 20]

theorem c9_urgency : urgencyFactor c9State = 4/5 := by
  have h1 : targetsSum c9State = 4 := rfl
  have h2 : relevantCount c9State = 5 := rfl
  rw [urgencyFactor, h1, h2]
  norm_num

/-- C9 (counterexample to the claim as stated): a non-terminal state whose
head item has an active target and non-empty affordable historical prices,
with urgency factor `0.8 < 1.0`, for which `_initialize_actions` generates no
skip action — the code adds a skip only when `urgency_factor < 0.8`, not for
every urgency below `1.0`. -/
theorem C9_counterexample :
    c9State.is_terminal = false ∧
    0 < (alookup (modelKey c9Item) c9State.remaining_targets).getD 0 ∧
    (c9Hist.filter (fun p => c9Item.min_price ≤ p)).filter
      (fun p => p ≤ c9State.current_budget) ≠ [] ∧
    urgencyFactor c9State < 1 ∧
    skipAction c9Item ∉ initActions c9State c9Hist := by
  refine ⟨rfl, by decide, by decide, by rw [c9_urgency]; norm_num, ?_⟩
  intro hmem
  rw [initActions_main_branch
      (rfl : c9State.available_auctions =
        c9Item :: [c9Item, c9Item, c9Item, c9Item])
      (rfl : c9State.is_terminal = false)
      (by decide) (by decide) (by decide)] at hmem
  rcases List.mem_append.mp hmem with h | h
  · have hsne : affordableSorted c9State c9Item c9Hist ≠ [] :=
      affordableSorted_ne_nil (by decide)
    obtain ⟨_, _, pt, hpt, hlabel⟩ := ppLoop_snd_labels hsne h
    have hlab : ∀ q ∈ (if 1 ≤ urgencyFactor c9State then aggressivePts
        else normalPts), q.2 ≠ "skip" := by
      split <;> decide
    exact hlab pt hpt (hlabel.symm.trans rfl)
  · rw [if_neg (by rw [c9_urgency]; exact lt_irrefl _)] at h
    exact List.not_mem_nil _ h

/-- C9 (amended): in the percentile branch of `_initialize_actions` (head item
has an active target, non-empty affordable historical prices), urgency `≥ 1.0`
selects the aggressive percentiles `{0.4, 0.6, 0.8, 0.95}` and urgency `< 1.0`
the percentiles `{0.25, 0.5, 0.75, 0.9}`; each distinct resulting bid price
becomes exactly one untried action, every such bid price is an affordable
valid price, and a skip action is included if and only if
`urgency_factor < 0.8` (not `< 1.0`). -/
theorem C9_percentile_and_skip (s : AuctionState) (hist : List ℤ)
    (cur : AuctionItem) (rest : List AuctionItem)
    (hq : s.available_auctions = cur :: rest)
    (hterm : s.is_terminal = false)
    (htgt : 0 < (alookup (modelKey cur) s.remaining_targets).getD 0)
    (hhist : hist ≠ [])
    (haff : (hist.filter (fun p => cur.min_price ≤ p)).filter
      (fun p => p ≤ s.current_budget) ≠ []) :
    (skipAction cur ∈ initActions s hist ↔ urgencyFactor s < 4/5) ∧
    (((initActions s hist).filter
        (fun a => decide (a.action_type ≠ "skip"))).map (·.bid_amount)).Nodup ∧
    (∀ b : ℤ, b ∈ ((initActions s hist).filter
        (fun a => decide (a.action_type ≠ "skip"))).map (·.bid_amount) ↔
      ∃ pt ∈ (if 1 ≤ urgencyFactor s then aggressivePts else normalPts),
        b = (affordableSorted s cur hist).getD
          (pickIdx (affordableSorted s cur hist).length pt.1) 0) ∧
    (∀ a ∈ initActions s hist, a.action_type ≠ "skip" →
      a.bid_amount ∈ (hist.filter (fun p => cur.min_price ≤ p)).filter
        (fun p => p ≤ s.current_budget)) := by
  have hIA := initActions_main_branch hq hterm htgt hhist haff
  have hsne : affordableSorted s cur hist ≠ [] := affordableSorted_ne_nil haff
  have hlab : ∀ pt ∈ (if 1 ≤ urgencyFactor s then aggressivePts
      else normalPts), pt.2 ≠ "skip" := by
    split <;> decide
  have hppskip : ∀ a ∈ (percentileActions cur.listing_id cur.min_price
      (affordableSorted s cur hist)
      (if 1 ≤ urgencyFactor s then aggressivePts else normalPts)).2,
      a.action_type ≠ "skip" := by
    intro a ha
    obtain ⟨_, _, pt, hpt, hlabel⟩ := ppLoop_snd_labels hsne ha
    rw [hlabel]
    exact hlab pt hpt
  refine ⟨?_, ?_, ?_, ?_⟩
  · -- skip action present iff urgency < 0.8
    rw [hIA]
    constructor
    · intro hmem
      rcases List.mem_append.mp hmem with h | h
      · exact absurd rfl (hppskip _ h)
      · by_contra hng
        rw [if_neg hng] at h
        exact List.not_mem_nil _ h
    · intro hlt
      rw [if_pos hlt]
      exact List.mem_append.mpr (Or.inr (List.mem_singleton.mpr rfl))
  · -- bid prices are pairwise distinct
    rw [hIA, List.filter_append]
    rw [List.filter_eq_self.mpr
      (fun a ha => decide_eq_true (hppskip a ha))]
    have hskips : ((if urgencyFactor s < 4/5 then [skipAction cur]
        else []).filter (fun a => decide (a.action_type ≠ "skip"))) = [] := by
      split <;> simp [skipAction]
    rw [hskips, List.append_nil]
    unfold percentileActions
    rw [ppLoop_snd_prices _ ([], []) rfl]
    exact List.nodup_reverse.mpr (ppLoop_fst_nodup _ ([], []) List.nodup_nil)
  · -- bid prices are exactly the percentile picks of the selected set
    intro b
    rw [hIA, List.filter_append,
      List.filter_eq_self.mpr (fun a ha => decide_eq_true (hppskip a ha))]
    have hskips : ((if urgencyFactor s < 4/5 then [skipAction cur]
        else []).filter (fun a => decide (a.action_type ≠ "skip"))) = [] := by
      split <;> simp [skipAction]
    rw [hskips, List.append_nil]
    unfold percentileActions
    rw [ppLoop_snd_prices _ ([], []) rfl, List.mem_reverse, ppLoop_fst_mem]
    simp only [List.not_mem_nil, false_or]
    constructor
    · rintro ⟨pt, hpt, hb, _⟩
      exact ⟨pt, hpt, hb⟩
    · rintro ⟨pt, hpt, hb⟩
      refine ⟨pt, hpt, hb, ?_⟩
      subst hb
      have hm := getD_mem_of_lt (l := affordableSorted s cur hist)
        (pickIdx_lt (fun h0 => hsne (List.eq_nil_of_length_eq_zero h0)) pt.1)
      have h3 := List.mem_of_mem_filter (affordableSorted_mem hm)
      exact of_decide_eq_true (List.mem_filter.mp h3).2
  · -- every non-skip generated bid is an affordable valid price
    intro a ha hskip
    rw [hIA] at ha
    rcases List.mem_append.mp ha with h | h
    · obtain ⟨hmem, _, _⟩ := ppLoop_snd_labels hsne h
      exact affordableSorted_mem hmem
    · exfalso
      split at h
      · rw [List.mem_singleton] at h
        subst h
        exact hskip rfl
      · exact List.not_mem_nil _ h

/-- Witness for `C9_percentile_and_skip` at the concrete C9 scenario. -/
theorem C9_percentile_and_skip_witness :
    skipAction c9Item ∈ initActions c9State c9Hist ↔
      urgencyFactor c9State < 4/5 :=
  (C9_percentile_and_skip c9State c9Hist c9Item [c9Item, c9Item, c9Item, c9Item]
    rfl rfl (by decide) (by decide) (by decide)).1

/-! ## Win probability (`MCTSAuctionOptimizer._calculate_win_probability`) -/

/-- The no-history fallback probability curve over `price_ratio =
bid_price / min_price`. -/
def priceRatioCurve (ratio : ℚ) : ℚ :=
  if 16/10 ≤ ratio then 85/100
  else if 14/10 ≤ ratio then 70/100
  else if 125/100 ≤ ratio then 55/100
  else if 115/100 ≤ ratio then 40/100
  else if 105/100 ≤ ratio then 25/100
  else 15/100

/-- Method `_calculate_win_probability`, as a function of the comparable groups found
by `_find_similar_cars` — each group a list of `(winning_price, time_weight)`
pairs — and of the item's minimum price and the candidate bid. -/
def calcWinProbability (groups : List (List (ℚ × ℚ))) (minPrice bid : ℚ) :
    ℚ :=
  if groups.isEmpty then priceRatioCurve (bid / minPrice)
  else if groups.flatten.isEmpty then 3/10
  else
    min
      (if 0 < (groups.flatten.map (·.2)).sum then
        ((groups.flatten.filter (fun pw => pw.1 ≤ bid)).map (·.2)).sum /
          (groups.flatten.map (·.2)).sum
      else 3/10)
      (95/100)

/-- Time weights `min(1, exp(-days/180))` are always strictly positive, so the
total weight of a non-empty price pool is positive. -/
theorem timeWeight_pos (x : ℝ) : 0 < min 1 (Real.exp x) :=
  lt_min one_pos (Real.exp_pos x)

/-- C3: with at least one comparable historical group the win probability is
the time-weighted fraction of historical winning prices `≤ bid`, capped at
`0.95`; with no comparable history it is the fixed price-ratio curve, and in
particular `0.85` exactly at `bid = 1.7 × min_price`. -/
theorem C3_win_probability (groups : List (List (ℚ × ℚ))) (m bid : ℚ)
    (hm : 0 < m) (hw : ∀ g ∈ groups, ∀ pw ∈ g, 0 < pw.2)
    (hne : ∀ g ∈ groups, g ≠ []) :
    (groups ≠ [] →
      calcWinProbability groups m bid =
        min (((groups.flatten.filter (fun pw => pw.1 ≤ bid)).map (·.2)).sum /
          (groups.flatten.map (·.2)).sum) (95/100)) ∧
    calcWinProbability [] m bid = priceRatioCurve (bid / m) ∧
    calcWinProbability [] m (17/10 * m) = 85/100 := by
  refine ⟨?_, rfl, ?_⟩
  · intro hgne
    have hjoin : groups.flatten ≠ [] := by
      cases groups with
      | nil => exact absurd rfl hgne
      | cons g gs =>
        have hg : g ≠ [] := hne g (List.mem_cons_self ..)
        cases g with
        | nil => exact absurd rfl hg
        | cons pw g' =>
          simp [List.flatten_cons]
    have hwpos : ∀ w ∈ groups.flatten.map (·.2), 0 < w := by
      intro w hwmem
      rw [List.mem_map] at hwmem
      obtain ⟨pw, hpw, rfl⟩ := hwmem
      rw [List.mem_flatten] at hpw
      obtain ⟨g, hg, hpwg⟩ := hpw
      exact hw g hg pw hpwg
    have htot : 0 < (groups.flatten.map (·.2)).sum :=
      List.sum_pos _ hwpos (by
        intro h0
        exact hjoin (List.map_eq_nil_iff.mp h0))
    unfold calcWinProbability
    rw [if_neg (fun h => hgne (List.isEmpty_iff.mp h)),
      if_neg (fun h => hjoin (List.isEmpty_iff.mp h)), if_pos htot]
  · show priceRatioCurve ((17/10 * m) / m) = 85/100
    have hr : (17/10 * m) / m = 17/10 := by
      rw [mul_div_assoc, div_self hm.ne', mul_one]
    rw [hr]
    unfold priceRatioCurve
    rw [if_pos (by norm_num)]

/-- Concrete comparable-group pool for the C3 witness: one group with prices
10 (weight 1/2) and 20 (weight 1). -/
def c3Groups : List (List (ℚ × ℚ)) := [[(10, 1/2), (20, 1)]]

/-- Witness for `C3_win_probability` at concrete inputs: minimum price 10,
bid 15. -/
theorem C3_win_probability_witness :
    calcWinProbability c3Groups 10 15 =
      min (((c3Groups.flatten.filter (fun pw => pw.1 ≤ 15)).map (·.2)).sum /
        (c3Groups.flatten.map (·.2)).sum) (95/100) :=
  (C3_win_probability c3Groups 10 15
    (by norm_num)
    (by
      intro g hg pw hpw
      simp only [c3Groups, List.mem_singleton] at hg
      subst hg
      rcases List.mem_cons.mp hpw with rfl | hpw2
      · norm_num
      · rw [List.mem_singleton] at hpw2
        subst hpw2
        norm_num)
    (by
      intro g hg
      simp only [c3Groups, List.mem_singleton] at hg
      subst hg
      exact List.cons_ne_nil _ _)).1
    (by simp [c3Groups])

/-! ## Historical price pool (`MCTSNode._get_historical_bid_prices`) -/

theorem pyInt_intCast (n : ℤ) : pyInt (n : ℚ) = n := by
  unfold pyInt
  rw [Int.floor_intCast, Int.ceil_intCast]
  split <;> rfl

theorem npRound_intCast (n : ℤ) : npRound (n : ℚ) = n := by
  unfold npRound
  rw [Int.floor_intCast]
  norm_num

/-- Source expression `repeat_count = max(1, int(weight * 5))`. -/
def repeatCount (w : ℚ) : ℕ := (max 1 (pyInt (w * 5))).toNat

/-- The intermediate `historical_prices` list: every `(price, weight)` pair of
every comparable group contributes `repeat_count` copies of its price. -/
def rawPool (groups : List (List (ℤ × ℚ))) : List ℤ :=
  groups.flatten.flatMap (fun pw => List.replicate (repeatCount pw.2) pw.1)

/-- Method `_get_historical_bid_prices` returns
`sorted(list(set(historical_prices)))`. -/
def historicalBidPrices (groups : List (List (ℤ × ℚ))) : List ℤ :=
  ((rawPool groups).dedup).insertionSort (· ≤ ·)

theorem repeatCount_one : repeatCount 1 = 5 := by
  unfold repeatCount
  rw [show ((1 : ℚ) * 5) = ((5 : ℤ) : ℚ) by norm_num, pyInt_intCast]
  decide

theorem floor_fifteen_quarters : ⌊(15/4 : ℚ)⌋ = 3 := by
  rw [Int.floor_eq_iff]
  norm_num

/-- C7 (counterexample to the claim as stated): a single group holding one
price `100` with weight exactly `1` (a record dated today:
`min(1, exp(0)) = 1`).  The claim predicts `100` appears
`max(1, round(1*5)) = 5` times in the materialized pool, but the code
deduplicates (`sorted(list(set(...)))`) and returns `100` exactly once.
Moreover the repeat count uses Python `int()` truncation, not `round`: at
weight `3/4` the code repeats `max(1, int(3.75)) = 3` times while
`max(1, round(3.75)) = 4`. -/
theorem C7_counterexample :
    List.count 100 (historicalBidPrices [[(100, 1)]]) = 1 ∧
    (max 1 (npRound ((1 : ℚ) * 5))).toNat = 5 ∧
    (1 : ℕ) ≠ 5 ∧
    repeatCount (3/4) = 3 ∧
    (max 1 (npRound ((3/4 : ℚ) * 5))).toNat = 4 := by
  refine ⟨?_, ?_, by decide, ?_, ?_⟩
  · have hraw : rawPool [[(100, 1)]] = List.replicate 5 100 := by
      simp [rawPool, repeatCount_one]
    unfold historicalBidPrices
    rw [hraw]
    decide
  · rw [show ((1 : ℚ) * 5) = ((5 : ℤ) : ℚ) by norm_num, npRound_intCast]
    decide
  · unfold repeatCount
    rw [show ((3/4 : ℚ) * 5) = (15/4 : ℚ) by norm_num]
    rw [show pyInt (15/4 : ℚ) = 3 by
      unfold pyInt
      rw [if_pos (by norm_num), floor_fifteen_quarters]]
    decide
  · rw [show ((3/4 : ℚ) * 5) = (15/4 : ℚ) by norm_num]
    rw [show npRound (15/4 : ℚ) = 4 by
      unfold npRound
      rw [floor_fifteen_quarters]
      norm_num]
    decide

/-- C7 (amended): each `(price, weight)` pair contributes
`max(1, int(weight*5))` (truncation, not rounding) copies of its price to the
intermediate pool, and the returned pool is the sorted deduplication of that
list, so each distinct price appears in it exactly once. -/
theorem C7_pool_structure (groups : List (List (ℤ × ℚ))) :
    (∀ p : ℤ, List.count p (rawPool groups) =
      (groups.flatten.map
        (fun pw => if pw.1 = p then repeatCount pw.2 else 0)).sum) ∧
    (historicalBidPrices groups).Nodup ∧
    (∀ b : ℤ, b ∈ historicalBidPrices groups ↔ b ∈ rawPool groups) ∧
    (∀ b : ℤ, List.count b (historicalBidPrices groups) =
      if b ∈ rawPool groups then 1 else 0) := by
  refine ⟨?_, ?_, ?_, ?_⟩
  · intro p
    unfold rawPool
    rw [List.count_flatMap]
    congr 1
    refine List.map_congr_left ?_
    intro pw _
    simp only [Function.comp_apply, List.count_replicate]
    split
    next h => rw [if_pos (by exact_mod_cast (beq_iff_eq ..).mp h)]
    next h => rw [if_neg (fun hc => h ((beq_iff_eq ..).mpr hc))]
  · exact ((List.perm_insertionSort _ _).nodup_iff).mpr
      (List.nodup_dedup _)
  · intro b
    unfold historicalBidPrices
    rw [List.mem_insertionSort, List.mem_dedup]
  · intro b
    unfold historicalBidPrices
    rw [(List.perm_insertionSort _ _).count_eq]
    split
    next h =>
      exact List.count_eq_one_of_mem (List.nodup_dedup _)
        (List.mem_dedup.mpr h)
    next h =>
      rw [List.count_eq_zero]
      exact fun hc => h (List.mem_dedup.mp hc)

/-! ## Bid cap estimator (`bidcap_engine.py`) -/

/-- Structure `BidCapConfig` — the fields used by cap assignment (`find_tol`). -/
structure BidCapConfig where
  disp_bin : ℚ
  mile_bin : ℚ
  year_tol : ℚ
  disp_tol : ℚ
  mile_tol : ℚ
deriving DecidableEq, Repr

/-- A row of the full-key cap table `cap_full`
(brand, model, year, disp_bin, mile_bin → bid_cap, cap_n). -/
structure CapEntry where
  brand : String
  model : String
  year : ℚ
  disp_bin : ℚ
  mile_bin : ℚ
  bid_cap : ℚ
  cap_n : ℤ
deriving DecidableEq, Repr

/-- A row of the `(brand, model, year)` cap table `cap_bmy`. -/
structure CapBMY where
  brand : String
  model : String
  year : ℚ
  bid_cap : ℚ
  cap_n : ℤ
deriving DecidableEq, Repr

/-- A row of the `(brand, model)` cap table `cap_bm`. -/
structure CapBM where
  brand : String
  model : String
  bid_cap : ℚ
  cap_n : ℤ
deriving DecidableEq, Repr

/-- A row of the `(brand)` cap table `cap_b`. -/
structure CapB where
  brand : String
  bid_cap : ℚ
  cap_n : ℤ
deriving DecidableEq, Repr

/-- The key attributes of a scheduled item used for cap assignment
(after binning). -/
structure SchedKey where
  brand : String
  model : String
  year : ℚ
  disp_bin : ℚ
  mile_bin : ℚ
deriving DecidableEq, Repr

/-- The tolerance test of `find_tol`:
`abs(cand.year - y) <= year_tol and abs(cand.disp_bin - d) <= disp_tol and
abs(cand.mile_bin - mi) <= mile_tol`. -/
def withinTol (cfg : BidCapConfig) (it : SchedKey) (e : CapEntry) : Prop :=
  |e.year - it.year| ≤ cfg.year_tol ∧ |e.disp_bin - it.disp_bin| ≤ cfg.disp_tol
    ∧ |e.mile_bin - it.mile_bin| ≤ cfg.mile_tol

instance (cfg : BidCapConfig) (it : SchedKey) (e : CapEntry) :
    Decidable (withinTol cfg it e) := by
  unfold withinTol
  infer_instance

/-- Source expression `score = (dist, -cand.cap_n)` where `dist = abs(year diff) +
abs(disp_bin diff)/disp_bin + abs(mile_bin diff)/mile_bin`. -/
def tolScore (cfg : BidCapConfig) (it : SchedKey) (e : CapEntry) : ℚ × ℤ :=
  (|e.year - it.year| + |e.disp_bin - it.disp_bin| / cfg.disp_bin +
    |e.mile_bin - it.mile_bin| / cfg.mile_bin, -e.cap_n)

/-- Python's lexicographic `<` on the `(dist, -cap_n)` score pairs. -/
def scoreLt (x y : ℚ × ℤ) : Prop := x.1 < y.1 ∨ (x.1 = y.1 ∧ x.2 < y.2)

instance (x y : ℚ × ℤ) : Decidable (scoreLt x y) := by
  unfold scoreLt
  infer_instance

theorem scoreLt_irrefl (x : ℚ × ℤ) : ¬ scoreLt x x := by
  rintro (h | ⟨-, h⟩) <;> exact lt_irrefl _ h

theorem scoreLt_trans {x y z : ℚ × ℤ} (hxy : scoreLt x y) (hyz : scoreLt y z) :
    scoreLt x z := by
  rcases hxy with h1 | ⟨e1, h1⟩ <;> rcases hyz with h2 | ⟨e2, h2⟩
  · exact Or.inl (lt_trans h1 h2)
  · exact Or.inl (e2 ▸ h1)
  · exact Or.inl (e1 ▸ h2)
  · exact Or.inr ⟨e1.trans e2, lt_trans h1 h2⟩

/-- The `for cand in cands` loop of `find_tol`, carrying
`(best, best_score)`. -/
def findTolLoop (cfg : BidCapConfig) (it : SchedKey) :
    List CapEntry → Option (CapEntry × (ℚ × ℤ)) → Option (CapEntry × (ℚ × ℤ))
  | [], best => best
  | e :: es, best =>
    if withinTol cfg it e then
      match best with
      | none => findTolLoop cfg it es (some (e, tolScore cfg it e))
      | some (b, sb) =>
        if scoreLt (tolScore cfg it e) sb then
          findTolLoop cfg it es (some (e, tolScore cfg it e))
        else findTolLoop cfg it es (some (b, sb))
    else findTolLoop cfg it es best

/-- Function `find_tol`: scan the full-table rows sharing the item's brand and model
(`by_bm[(b, m)]`) for the best within-tolerance candidate. -/
def findTol (cfg : BidCapConfig) (fullTab : List CapEntry) (it : SchedKey) :
    Option CapEntry :=
  (findTolLoop cfg it
    (fullTab.filter (fun e => decide (e.brand = it.brand ∧ e.model = it.model)))
    none).map (·.1)

/-- The result of cap assignment for one scheduled item: cap price, sample
count and fallback level, as written into the `bid_cap`/`cap_n`/`cap_level`
columns. -/
structure CapResult where
  bid_cap : Option ℚ
  cap_n : Option ℤ
  cap_level : String
deriving DecidableEq, Repr

/-- The per-item assignment loop body of `compute_bid_caps`: tolerance match
first, then the `(brand, model, year)`, `(brand, model)`, `(brand)` tables in
that order (first matching row), finally the global quantile cap. -/
def assignCap (cfg : BidCapConfig) (fullTab : List CapEntry)
    (bmyTab : List CapBMY) (bmTab : List CapBM) (bTab : List CapB)
    (globalCap : Option ℚ) (it : SchedKey) : CapResult :=
  match findTol cfg fullTab it with
  | some e => ⟨some e.bid_cap, some e.cap_n, "tolerance"⟩
  | none =>
    match bmyTab.find? (fun r =>
        decide (r.brand = it.brand ∧ r.model = it.model ∧ r.year = it.year)) with
    | some r => ⟨some r.bid_cap, some r.cap_n, "bmy"⟩
    | none =>
      match bmTab.find? (fun r =>
          decide (r.brand = it.brand ∧ r.model = it.model)) with
      | some r => ⟨some r.bid_cap, some r.cap_n, "bm"⟩
      | none =>
        match bTab.find? (fun r => decide (r.brand = it.brand)) with
        | some r => ⟨some r.bid_cap, some r.cap_n, "b"⟩
        | none => ⟨globalCap, none, "global"⟩

theorem findTolLoop_some_ne_none (cfg : BidCapConfig) (it : SchedKey) :
    ∀ (es : List CapEntry) (b : CapEntry × (ℚ × ℤ)),
      findTolLoop cfg it es (some b) ≠ none
  | [], b => by
    rw [findTolLoop]
    exact Option.some_ne_none b
  | e :: es, b => by
    rw [findTolLoop]
    split
    · obtain ⟨b1, b2⟩ := b
      split
      · exact findTolLoop_some_ne_none cfg it es _
      · exact findTolLoop_some_ne_none cfg it es _
    · exact findTolLoop_some_ne_none cfg it es b

theorem findTolLoop_eq_none (cfg : BidCapConfig) (it : SchedKey) :
    ∀ (es : List CapEntry) (best : Option (CapEntry × (ℚ × ℤ))),
      findTolLoop cfg it es best = none →
      best = none ∧ ∀ e ∈ es, ¬ withinTol cfg it e
  | [], best => by
    rw [findTolLoop]
    intro h
    exact ⟨h, by simp⟩
  | e :: es, best => by
    rcases best with _ | ⟨b0, sb0⟩
    · rw [findTolLoop]
      split
      next hw =>
        intro h
        exact absurd h (findTolLoop_some_ne_none cfg it es _)
      next hw =>
        intro h
        obtain ⟨h1, h2⟩ := findTolLoop_eq_none cfg it es none h
        refine ⟨h1, ?_⟩
        intro e' he'
        rcases List.mem_cons.mp he' with rfl | he'
        · exact hw
        · exact h2 e' he'
    · rw [findTolLoop]
      intro h
      split at h
      · split at h <;> exact absurd h (findTolLoop_some_ne_none cfg it es _)
      · exact absurd h (findTolLoop_some_ne_none cfg it es _)

theorem findTolLoop_spec (cfg : BidCapConfig) (it : SchedKey) :
    ∀ (es : List CapEntry) (best : Option (CapEntry × (ℚ × ℤ))),
      (∀ b sb, best = some (b, sb) → sb = tolScore cfg it b) →
      ∀ e sc, findTolLoop cfg it es best = some (e, sc) →
        sc = tolScore cfg it e ∧
        ((e ∈ es ∧ withinTol cfg it e) ∨ best = some (e, sc)) ∧
        (∀ e' ∈ es, withinTol cfg it e' →
          ¬ scoreLt (tolScore cfg it e') sc) ∧
        (∀ b sb, best = some (b, sb) → scoreLt sc sb ∨ sc = sb)
  | [], best => by
    intro hbest e sc h
    rw [findTolLoop] at h
    subst h
    exact ⟨hbest e sc rfl, Or.inr rfl, by simp, fun b sb hb => by
      cases hb
      exact Or.inr rfl⟩
  | e0 :: es, best => by
    rcases best with _ | ⟨b0, sb0⟩
    · intro hbest e sc h
      rw [findTolLoop] at h
      split at h
      next hw0 =>
        obtain ⟨h1, h2, h3, h4⟩ := findTolLoop_spec cfg it es _
          (by intro b sb heq; cases heq; rfl) e sc h
        refine ⟨h1, ?_, ?_, ?_⟩
        · rcases h2 with ⟨hmem, hwin⟩ | heq
          · exact Or.inl ⟨List.mem_cons_of_mem _ hmem, hwin⟩
          · have he0 : e = e0 := by
              injection heq with heq'
              exact (congrArg Prod.fst heq').symm
            subst he0
            exact Or.inl ⟨List.mem_cons_self .., hw0⟩
        · intro e' he' hwe'
          rcases List.mem_cons.mp he' with rfl | he'
          · rcases h4 e' (tolScore cfg it e') rfl with hlt | heq
            · intro hcon
              exact scoreLt_irrefl _ (scoreLt_trans hcon hlt)
            · rw [heq]
              exact scoreLt_irrefl _
          · exact h3 e' he' hwe'
        · intro b sb hb
          cases hb
      next hw0 =>
        obtain ⟨h1, h2, h3, h4⟩ := findTolLoop_spec cfg it es none
          (by intro b sb heq; cases heq) e sc h
        refine ⟨h1, ?_, ?_, ?_⟩
        · rcases h2 with ⟨hmem, hwin⟩ | heq
          · exact Or.inl ⟨List.mem_cons_of_mem _ hmem, hwin⟩
          · cases heq
        · intro e' he' hwe'
          rcases List.mem_cons.mp he' with rfl | he'
          · exact absurd hwe' hw0
          · exact h3 e' he' hwe'
        · intro b sb hb
          cases hb
    · intro hbest e sc h
      have hsb0 : sb0 = tolScore cfg it b0 := hbest b0 sb0 rfl
      rw [findTolLoop] at h
      split at h
      next hw0 =>
        split at h
        next hbetter =>
          obtain ⟨h1, h2, h3, h4⟩ := findTolLoop_spec cfg it es _
            (by intro b sb heq; cases heq; rfl) e sc h
          refine ⟨h1, ?_, ?_, ?_⟩
          · rcases h2 with ⟨hmem, hwin⟩ | heq
            · exact Or.inl ⟨List.mem_cons_of_mem _ hmem, hwin⟩
            · have he0 : e = e0 := by
                injection heq with heq'
                exact (congrArg Prod.fst heq').symm
              subst he0
              exact Or.inl ⟨List.mem_cons_self .., hw0⟩
          · intro e' he' hwe'
            rcases List.mem_cons.mp he' with rfl | he'
            · rcases h4 e' (tolScore cfg it e') rfl with hlt | heq
              · intro hcon
                exact scoreLt_irrefl _ (scoreLt_trans hcon hlt)
              · rw [heq]
                exact scoreLt_irrefl _
            · exact h3 e' he' hwe'
          · intro b sb hb
            cases hb
            rcases h4 e0 (tolScore cfg it e0) rfl with hlt | heq
            · exact Or.inl (scoreLt_trans hlt hbetter)
            · exact Or.inl (heq ▸ hbetter)
        next hnb =>
          obtain ⟨h1, h2, h3, h4⟩ := findTolLoop_spec cfg it es _
            (by intro b sb heq; cases heq; exact hsb0) e sc h
          refine ⟨h1, ?_, ?_, ?_⟩
          · rcases h2 with ⟨hmem, hwin⟩ | heq
            · exact Or.inl ⟨List.mem_cons_of_mem _ hmem, hwin⟩
            · exact Or.inr heq
          · intro e' he' hwe'
            rcases List.mem_cons.mp he' with rfl | he'
            · intro hcon
              rcases h4 b0 sb0 rfl with hlt | heq
              · exact hnb (scoreLt_trans hcon hlt)
              · exact hnb (heq ▸ hcon)
            · exact h3 e' he' hwe'
          · intro b sb hb
            cases hb
            exact h4 b0 sb0 rfl
      next hw0 =>
        obtain ⟨h1, h2, h3, h4⟩ := findTolLoop_spec cfg it es _ hbest e sc h
        refine ⟨h1, ?_, ?_, h4⟩
        · rcases h2 with ⟨hmem, hwin⟩ | heq
          · exact Or.inl ⟨List.mem_cons_of_mem _ hmem, hwin⟩
          · exact Or.inr heq
        · intro e' he' hwe'
          rcases List.mem_cons.mp he' with rfl | he'
          · exact absurd hwe' hw0
          · exact h3 e' he' hwe'

theorem findTol_spec_some {cfg : BidCapConfig} {fullTab : List CapEntry}
    {it : SchedKey} {e : CapEntry} (h : findTol cfg fullTab it = some e) :
    e ∈ fullTab ∧ e.brand = it.brand ∧ e.model = it.model ∧
      withinTol cfg it e ∧
      ∀ e' ∈ fullTab, e'.brand = it.brand → e'.model = it.model →
        withinTol cfg it e' →
        ¬ scoreLt (tolScore cfg it e') (tolScore cfg it e) := by
  unfold findTol at h
  rw [Option.map_eq_some'] at h
  obtain ⟨⟨e1, sc⟩, hloop, hfst⟩ := h
  have he1 : e = e1 := hfst.symm
  subst he1
  obtain ⟨hsc, h2, h3, -⟩ := findTolLoop_spec cfg it _ none
    (by intro b sb hb; cases hb) e sc hloop
  rcases h2 with ⟨hmem, hwin⟩ | heq
  · have hmem' := List.mem_filter.mp hmem
    obtain ⟨hbrand, hmodel⟩ := of_decide_eq_true hmem'.2
    refine ⟨hmem'.1, hbrand, hmodel, hwin, ?_⟩
    intro e' he' hb' hm' hw'
    have : e' ∈ fullTab.filter
        (fun e => decide (e.brand = it.brand ∧ e.model = it.model)) :=
      List.mem_filter.mpr ⟨he', decide_eq_true ⟨hb', hm'⟩⟩
    rw [hsc] at h3
    exact h3 e' this hw'
  · cases heq

theorem findTol_eq_none {cfg : BidCapConfig} {fullTab : List CapEntry}
    {it : SchedKey} (h : findTol cfg fullTab it = none) :
    ∀ e ∈ fullTab, e.brand = it.brand → e.model = it.model →
      ¬ withinTol cfg it e := by
  unfold findTol at h
  rw [Option.map_eq_none'] at h
  obtain ⟨-, hall⟩ := findTolLoop_eq_none cfg it _ none h
  intro e he hb hm
  exact hall e (List.mem_filter.mpr ⟨he, decide_eq_true ⟨hb, hm⟩⟩)

/-- C2: cap assignment chooses exactly one fallback level by finest-available
match: if some full-key entry shares the item's brand and model within all
tolerances, the assignment is the "tolerance" level using an entry minimizing
`(year_diff + disp_diff/disp_bin + mileage_diff/mile_bin, -sample_count)`;
otherwise the `(brand,model,year)`, `(brand,model)`, `(brand)` tables are
tried in that order, stopping at the first containing the item's key, and
finally the global quantile cap is used. -/
theorem C2_cap_level_assignment (cfg : BidCapConfig) (fullTab : List CapEntry)
    (bmyTab : List CapBMY) (bmTab : List CapBM) (bTab : List CapB)
    (globalCap : Option ℚ) (it : SchedKey) :
    ((∃ e ∈ fullTab, e.brand = it.brand ∧ e.model = it.model ∧
        withinTol cfg it e) →
      ∃ e ∈ fullTab, e.brand = it.brand ∧ e.model = it.model ∧
        withinTol cfg it e ∧
        assignCap cfg fullTab bmyTab bmTab bTab globalCap it =
          ⟨some e.bid_cap, some e.cap_n, "tolerance"⟩ ∧
        ∀ e' ∈ fullTab, e'.brand = it.brand → e'.model = it.model →
          withinTol cfg it e' →
          ¬ scoreLt (tolScore cfg it e') (tolScore cfg it e)) ∧
    ((∀ e ∈ fullTab, e.brand = it.brand → e.model = it.model →
        ¬ withinTol cfg it e) →
      ((∃ r ∈ bmyTab, r.brand = it.brand ∧ r.model = it.model ∧
          r.year = it.year) →
        (assignCap cfg fullTab bmyTab bmTab bTab globalCap it).cap_level =
          "bmy") ∧
      ((¬ ∃ r ∈ bmyTab, r.brand = it.brand ∧ r.model = it.model ∧
          r.year = it.year) →
        (∃ r ∈ bmTab, r.brand = it.brand ∧ r.model = it.model) →
        (assignCap cfg fullTab bmyTab bmTab bTab globalCap it).cap_level =
          "bm") ∧
      ((¬ ∃ r ∈ bmyTab, r.brand = it.brand ∧ r.model = it.model ∧
          r.year = it.year) →
        (¬ ∃ r ∈ bmTab, r.brand = it.brand ∧ r.model = it.model) →
        (∃ r ∈ bTab, r.brand = it.brand) →
        (assignCap cfg fullTab bmyTab bmTab bTab globalCap it).cap_level =
          "b") ∧
      ((¬ ∃ r ∈ bmyTab, r.brand = it.brand ∧ r.model = it.model ∧
          r.year = it.year) →
        (¬ ∃ r ∈ bmTab, r.brand = it.brand ∧ r.model = it.model) →
        (¬ ∃ r ∈ bTab, r.brand = it.brand) →
        assignCap cfg fullTab bmyTab bmTab bTab globalCap it =
          ⟨globalCap, none, "global"⟩)) := by
  constructor
  · intro hex
    cases hft : findTol cfg fullTab it with
    | none =>
      exfalso
      obtain ⟨e, he, hb, hm, hw⟩ := hex
      exact findTol_eq_none hft e he hb hm hw
    | some e =>
      obtain ⟨hmem, hb, hm, hw, hmin⟩ := findTol_spec_some hft
      refine ⟨e, hmem, hb, hm, hw, ?_, hmin⟩
      unfold assignCap
      rw [hft]
  · intro hnone
    have hft : findTol cfg fullTab it = none := by
      cases hft : findTol cfg fullTab it with
      | none => rfl
      | some e =>
        obtain ⟨hmem, hb, hm, hw, -⟩ := findTol_spec_some hft
        exact absurd hw (hnone e hmem hb hm)
    refine ⟨?_, ?_, ?_, ?_⟩
    · intro hbmy
      obtain ⟨r, hr, hp⟩ := hbmy
      have hsome : (bmyTab.find? (fun r =>
          decide (r.brand = it.brand ∧ r.model = it.model ∧
            r.year = it.year))).isSome :=
        List.find?_isSome.mpr ⟨r, hr, decide_eq_true hp⟩
      obtain ⟨r', hr'⟩ := Option.isSome_iff_exists.mp hsome
      unfold assignCap
      rw [hft, hr']
    · intro hnbmy hbm
      have hnone1 : bmyTab.find? (fun r =>
          decide (r.brand = it.brand ∧ r.model = it.model ∧
            r.year = it.year)) = none := by
        rw [List.find?_eq_none]
        intro r hr hp
        exact hnbmy ⟨r, hr, of_decide_eq_true hp⟩
      obtain ⟨r, hr, hp⟩ := hbm
      have hsome : (bmTab.find? (fun r =>
          decide (r.brand = it.brand ∧ r.model = it.model))).isSome :=
        List.find?_isSome.mpr ⟨r, hr, decide_eq_true hp⟩
      obtain ⟨r', hr'⟩ := Option.isSome_iff_exists.mp hsome
      unfold assignCap
      rw [hft, hnone1, hr']
    · intro hnbmy hnbm hb
      have hnone1 : bmyTab.find? (fun r =>
          decide (r.brand = it.brand ∧ r.model = it.model ∧
            r.year = it.year)) = none := by
        rw [List.find?_eq_none]
        intro r hr hp
        exact hnbmy ⟨r, hr, of_decide_eq_true hp⟩
      have hnone2 : bmTab.find? (fun r =>
          decide (r.brand = it.brand ∧ r.model = it.model)) = none := by
        rw [List.find?_eq_none]
        intro r hr hp
        exact hnbm ⟨r, hr, of_decide_eq_true hp⟩
      obtain ⟨r, hr, hp⟩ := hb
      have hsome : (bTab.find? (fun r =>
          decide (r.brand = it.brand))).isSome :=
        List.find?_isSome.mpr ⟨r, hr, decide_eq_true hp⟩
      obtain ⟨r', hr'⟩ := Option.isSome_iff_exists.mp hsome
      unfold assignCap
      rw [hft, hnone1, hnone2, hr']
    · intro hnbmy hnbm hnb
      have hnone1 : bmyTab.find? (fun r =>
          decide (r.brand = it.brand ∧ r.model = it.model ∧
            r.year = it.year)) = none := by
        rw [List.find?_eq_none]
        intro r hr hp
        exact hnbmy ⟨r, hr, of_decide_eq_true hp⟩
      have hnone2 : bmTab.find? (fun r =>
          decide (r.brand = it.brand ∧ r.model = it.model)) = none := by
        rw [List.find?_eq_none]
        intro r hr hp
        exact hnbm ⟨r, hr, of_decide_eq_true hp⟩
      have hnone3 : bTab.find? (fun r => decide (r.brand = it.brand)) =
          none := by
        rw [List.find?_eq_none]
        intro r hr hp
        exact hnb ⟨r, hr, of_decide_eq_true hp⟩
      unfold assignCap
      rw [hft, hnone1, hnone2, hnone3]

/-- Witness for `C2_cap_level_assignment`: with all cap tables empty, every
item falls back to the global quantile cap. -/
theorem C2_cap_level_assignment_witness :
    assignCap ⟨500, 5000, 2, 1000, 10000⟩ [] [] [] [] (some 42)
        ⟨"b", "m", 2020, 1500, 30000⟩ =
      ⟨some 42, none, "global"⟩ :=
  (C2_cap_level_assignment ⟨500, 5000, 2, 1000, 10000⟩ [] [] [] [] (some 42)
      ⟨"b", "m", 2020, 1500, 30000⟩).2
    (by simp) |>.2.2.2 (by simp) (by simp) (by simp)

/-! ## Best action sequence extraction
(`MCTSAuctionOptimizer.get_best_action_sequence`) -/

/-- An MCTS tree node as read by the extraction loop: the action that led to
it (`none` for the root), its visit count, and its children. -/
inductive MCTSTreeNode where
  | mk (action : Option AuctionAction) (visits : ℕ)
      (children : List MCTSTreeNode)

/-- The action stored at a node. -/
def MCTSTreeNode.action : MCTSTreeNode → Option AuctionAction
  | .mk a _ _ => a

/-- The visit count of a node. -/
def MCTSTreeNode.visits : MCTSTreeNode → ℕ
  | .mk _ v _ => v

/-- The children of a node. -/
def MCTSTreeNode.children : MCTSTreeNode → List MCTSTreeNode
  | .mk _ _ cs => cs

/-- Python's `max(children, key=lambda child: child.visits)`: scan keeping the
current best, replacing only on strictly larger visit count (first of ties
wins). -/
def maxByVisits : MCTSTreeNode → List MCTSTreeNode → MCTSTreeNode
  | best, [] => best
  | best, c :: cs =>
    if best.visits < c.visits then maxByVisits c cs else maxByVisits best cs

/-- Method `get_best_action_sequence`: follow the most-visited child while the node
has children and the depth bound (default `max_depth = 10`) is not reached,
appending each chosen child's action. -/
def getBestActionSequence : MCTSTreeNode → ℕ → List AuctionAction
  | _, 0 => []
  | node, d + 1 =>
    match node.children with
    | [] => []
    | c :: cs =>
      let best := maxByVisits c cs
      (match best.action with
       | some a => [a]
       | none => []) ++ getBestActionSequence best d

theorem maxByVisits_mem : ∀ (b : MCTSTreeNode) (cs : List MCTSTreeNode),
    maxByVisits b cs = b ∨ maxByVisits b cs ∈ cs
  | _, [] => Or.inl rfl
  | b, c :: cs => by
    rw [maxByVisits]
    split
    · rcases maxByVisits_mem c cs with h | h
      · exact Or.inr (by rw [h]; exact List.mem_cons_self ..)
      · exact Or.inr (List.mem_cons_of_mem _ h)
    · rcases maxByVisits_mem b cs with h | h
      · exact Or.inl h
      · exact Or.inr (List.mem_cons_of_mem _ h)

theorem maxByVisits_ge : ∀ (b : MCTSTreeNode) (cs : List MCTSTreeNode),
    b.visits ≤ (maxByVisits b cs).visits ∧
      ∀ c ∈ cs, c.visits ≤ (maxByVisits b cs).visits
  | _, [] => ⟨le_refl _, by simp⟩
  | b, c :: cs => by
    rw [maxByVisits]
    split
    next hlt =>
      obtain ⟨h1, h2⟩ := maxByVisits_ge c cs
      refine ⟨le_trans (le_of_lt hlt) h1, ?_⟩
      intro c' hc'
      rcases List.mem_cons.mp hc' with rfl | hc'
      · exact h1
      · exact h2 c' hc'
    next hge =>
      obtain ⟨h1, h2⟩ := maxByVisits_ge b cs
      refine ⟨h1, ?_⟩
      intro c' hc'
      rcases List.mem_cons.mp hc' with rfl | hc'
      · exact le_trans (not_lt.mp hge) h1
      · exact h2 c' hc'

/-- Depth-12 linear chain used to exhibit the depth cap of the extraction. -/
def chainTree : ℕ → MCTSTreeNode
  | 0 => .mk (some ⟨"L", 1, "moderate"⟩) 1 []
  | n + 1 => .mk (some ⟨"L", 1, "moderate"⟩) 1 [chainTree n]

/-- C8 (counterexample to the claim as stated): on a chain of depth 12, the
extraction with the default `max_depth = 10` stops after 10 actions although
the node it stops at still has children — with a larger depth bound the
sequence is longer, so the sequence does not end only at childless nodes. -/
theorem C8_counterexample :
    (getBestActionSequence (.mk none 1 [chainTree 11]) 10).length = 10 ∧
    (getBestActionSequence (.mk none 1 [chainTree 11]) 11).length = 11 := by
  constructor <;> rfl

/-- C8 (amended): the best action sequence starts at the root and, while the
current node has children **and the depth bound `max_depth` (default 10) is
not exhausted**, selects the child with the highest visit count (ties broken
by first position, visit count only — not mean reward) and appends its
action; the sequence ends when a childless node or the depth bound is
reached. -/
theorem C8_best_action_sequence (t : MCTSTreeNode) (d : ℕ) :
    (t.children = [] → getBestActionSequence t d = []) ∧
    getBestActionSequence t 0 = [] ∧
    (∀ c cs, t.children = c :: cs → 0 < d →
      getBestActionSequence t d =
        (match (maxByVisits c cs).action with
         | some a => [a]
         | none => []) ++ getBestActionSequence (maxByVisits c cs) (d - 1)) ∧
    (∀ c cs, t.children = c :: cs →
      maxByVisits c cs ∈ t.children ∧
      ∀ c' ∈ t.children, c'.visits ≤ (maxByVisits c cs).visits) := by
  refine ⟨?_, ?_, ?_, ?_⟩
  · intro h
    cases d with
    | zero => rfl
    | succ d =>
      rw [getBestActionSequence, h]
  · rfl
  · intro c cs hc hd
    cases d with
    | zero => exact absurd hd (lt_irrefl 0)
    | succ d =>
      rw [getBestActionSequence, hc]
      rfl
  · intro c cs hc
    constructor
    · rw [hc]
      rcases maxByVisits_mem c cs with h | h
      · rw [h]
        exact List.mem_cons_self ..
      · exact List.mem_cons_of_mem _ h
    · intro c' hc'
      rw [hc] at hc'
      obtain ⟨h1, h2⟩ := maxByVisits_ge c cs
      rcases List.mem_cons.mp hc' with rfl | hc'
      · exact h1
      · exact h2 c' hc'

/-- Witness for `C8_best_action_sequence` at a concrete two-node tree. -/
theorem C8_best_action_sequence_witness :
    getBestActionSequence (.mk none 3 []) 10 = [] :=
  (C8_best_action_sequence (.mk none 3 []) 10).1 rfl

/-! ## Reoptimization feedback (`fastapi_app.py`, `post_reoptimize`) -/

/-- Function `_calc_adjust_factor`: map a per-category success rate to a multiplicative
cap adjustment. -/
def calcAdjustFactor (sr : ℚ) : ℚ :=
  if sr < 3/10 then 1/10
  else if sr < 1/2 then 1/20
  else if sr < 7/10 then 1/50
  else if sr ≤ 85/100 then 0
  else -(1/20)

/-- pandas `.clip(-0.15, 0.15)` on the adjustment factor. -/
def clip015 (x : ℚ) : ℚ := max (-(15/100)) (min x (15/100))

/-- The `adjust_factor` column of the feedback groups: success rate mapped
through `_calc_adjust_factor` and clipped. -/
def grpFactors (fb : List ((String × String × ℤ) × ℚ)) :
    List ((String × String × ℤ) × ℚ) :=
  fb.map (fun kv => (kv.1, clip015 (calcAdjustFactor kv.2)))

/-- A schedule row with its baseline cap and auction date (dates as ordinals,
so `as_of ≤ date` is the `future_mask`). -/
structure FutRow where
  brand : String
  model : String
  year : ℤ
  bid_cap : Option ℚ
  auction_date : ℤ
deriving DecidableEq, Repr

/-- The future-dated rows joined (left) with the feedback factors, factor
defaulting to `0` for categories with no feedback, and the adjusted cap
`round(bid_cap * (1 + adjust_factor))`. -/
def adjustFuture (sched : List FutRow)
    (grp : List ((String × String × ℤ) × ℚ)) (asOf : ℤ) :
    List (FutRow × ℚ × Option ℤ) :=
  (sched.filter (fun r => decide (asOf ≤ r.auction_date))).map
    (fun r =>
      let f := (alookup (r.brand, r.model, r.year) grp).getD 0
      (r, f, r.bid_cap.map (fun c => npRound (c * (1 + f)))))

theorem alookup_grpFactors (k : String × String × ℤ) :
    ∀ fb : List ((String × String × ℤ) × ℚ),
      alookup k (grpFactors fb) =
        (alookup k fb).map (fun x => clip015 (calcAdjustFactor x))
  | [] => rfl
  | kv :: rest => by
    rw [grpFactors, List.map_cons, alookup, alookup]
    by_cases h : kv.1 = k
    · rw [if_pos (show (kv.1, clip015 (calcAdjustFactor kv.2)).1 = k from h),
        if_pos h]
      rfl
    · rw [if_neg (show ¬ (kv.1, clip015 (calcAdjustFactor kv.2)).1 = k from h),
        if_neg h]
      exact alookup_grpFactors k rest

/-- C6: the adjustment factor is the step function of the success rate
(`<0.30 → +0.10`, `<0.50 → +0.05`, `<0.70 → +0.02`, `≤0.85 → 0`, else
`−0.05`), the clip to `[−0.15, 0.15]` never changes it, and the adjusted cap
`round(cap × (1 + factor))` is attached to exactly the future-dated scheduled
rows, with factor `0` for categories with no feedback. -/
theorem C6_reoptimize_adjustment (sr : ℚ) (h0 : 0 ≤ sr) (h1 : sr ≤ 1)
    (sched : List FutRow) (fb : List ((String × String × ℤ) × ℚ))
    (asOf : ℤ) :
    ((sr < 3/10 → calcAdjustFactor sr = 1/10) ∧
     (3/10 ≤ sr → sr < 1/2 → calcAdjustFactor sr = 1/20) ∧
     (1/2 ≤ sr → sr < 7/10 → calcAdjustFactor sr = 1/50) ∧
     (7/10 ≤ sr → sr ≤ 85/100 → calcAdjustFactor sr = 0) ∧
     (85/100 < sr → calcAdjustFactor sr = -(1/20))) ∧
    (-(15/100) ≤ clip015 (calcAdjustFactor sr) ∧
      clip015 (calcAdjustFactor sr) ≤ 15/100 ∧
      clip015 (calcAdjustFactor sr) = calcAdjustFactor sr) ∧
    (∀ rf ∈ adjustFuture sched (grpFactors fb) asOf,
      rf.1 ∈ sched ∧ asOf ≤ rf.1.auction_date ∧
      rf.2.1 = ((alookup (rf.1.brand, rf.1.model, rf.1.year) fb).map
        (fun x => clip015 (calcAdjustFactor x))).getD 0 ∧
      rf.2.2 = rf.1.bid_cap.map (fun c => npRound (c * (1 + rf.2.1))) ∧
      (alookup (rf.1.brand, rf.1.model, rf.1.year) fb = none →
        rf.2.1 = 0)) ∧
    (∀ r ∈ sched, asOf ≤ r.auction_date →
      ∃ rf ∈ adjustFuture sched (grpFactors fb) asOf, rf.1 = r) := by
  refine ⟨?_, ?_, ?_, ?_⟩
  · unfold calcAdjustFactor
    refine ⟨?_, ?_, ?_, ?_, ?_⟩
    · intro h
      rw [if_pos h]
    · intro ha hb
      rw [if_neg (not_lt.mpr ha), if_pos hb]
    · intro ha hb
      rw [if_neg (not_lt.mpr (le_trans (by norm_num) ha)),
        if_neg (not_lt.mpr ha), if_pos hb]
    · intro ha hb
      rw [if_neg (not_lt.mpr (le_trans (by norm_num) ha)),
        if_neg (not_lt.mpr (le_trans (by norm_num) ha)),
        if_neg (not_lt.mpr ha), if_pos hb]
    · intro h
      rw [if_neg (not_lt.mpr (le_trans (by norm_num) h.le)),
        if_neg (not_lt.mpr (le_trans (by norm_num) h.le)),
        if_neg (not_lt.mpr (le_trans (by norm_num) h.le)),
        if_neg (not_le.mpr h)]
  · have hmem : calcAdjustFactor sr = 1/10 ∨ calcAdjustFactor sr = 1/20 ∨
        calcAdjustFactor sr = 1/50 ∨ calcAdjustFactor sr = 0 ∨
        calcAdjustFactor sr = -(1/20) := by
      unfold calcAdjustFactor
      split
      · exact Or.inl rfl
      split
      · exact Or.inr (Or.inl rfl)
      split
      · exact Or.inr (Or.inr (Or.inl rfl))
      split
      · exact Or.inr (Or.inr (Or.inr (Or.inl rfl)))
      · exact Or.inr (Or.inr (Or.inr (Or.inr rfl)))
    rcases hmem with h | h | h | h | h <;> rw [h] <;>
      refine ⟨by norm_num [clip015], by norm_num [clip015],
        by norm_num [clip015]⟩
  · intro rf hrf
    unfold adjustFuture at hrf
    rw [List.mem_map] at hrf
    obtain ⟨r, hrmem, heq⟩ := hrf
    have hr := List.mem_filter.mp hrmem
    subst heq
    refine ⟨hr.1, of_decide_eq_true hr.2, ?_, rfl, ?_⟩
    · simp only
      rw [alookup_grpFactors]
    · intro hnone
      simp only
      rw [alookup_grpFactors, hnone]
      rfl
  · intro r hr hfut
    refine ⟨(r, (alookup (r.brand, r.model, r.year) (grpFactors fb)).getD 0,
      r.bid_cap.map (fun c => npRound (c * (1 +
        (alookup (r.brand, r.model, r.year) (grpFactors fb)).getD 0)))), ?_, rfl⟩
    unfold adjustFuture
    rw [List.mem_map]
    exact ⟨r, List.mem_filter.mpr ⟨hr, decide_eq_true hfut⟩, rfl⟩

/-- Witness for `C6_reoptimize_adjustment` at success rate `0.25` with one
future-dated row and no feedback. -/
theorem C6_reoptimize_adjustment_witness :
    calcAdjustFactor (1/4) = 1/10 :=
  ((C6_reoptimize_adjustment (1/4) (by norm_num) (by norm_num)
    [] [] 0).1).1 (by norm_num)

/-! ## Greedy purchase allocator (`purchase_allocator.py`) -/

/-- A schedule row joined with its bid cap (the fields `allocate` reads;
passthrough columns such as displacement or cap level are omitted). -/
structure SchedRow where
  brand : String
  model : String
  year : ℤ
  bid_cap : Option ℚ
  auction_house : String
  listing_id : String
deriving DecidableEq, Repr

/-- One purchase plan entry. -/
structure PlanRow where
  brand : String
  model : String
  year : ℤ
  target_units : ℤ
deriving DecidableEq, Repr

/-- The category key `(brand, model, year)` of a plan. -/
def planKey (p : PlanRow) : String × String × ℤ := (p.brand, p.model, p.year)

/-- The category key `(row["brand"], row["model"], int(row["year"]))` of a
merged candidate row. -/
def rowKey (sp : SchedRow × PlanRow) : String × String × ℤ :=
  (sp.1.brand, sp.1.model, sp.1.year)

/-- Source statement `cand = sched.merge(plans, on=brand/model/year, how=inner)`. -/
def mergeCandidates (sched : List SchedRow) (plans : List PlanRow) :
    List (SchedRow × PlanRow) :=
  sched.flatMap (fun s =>
    (plans.filter (fun p =>
      decide (p.brand = s.brand ∧ p.model = s.model ∧ p.year = s.year))).map
      (fun p => (s, p)))

/-- Column `max_bid_price = float(bid_cap)` of a candidate row (rows with missing
caps are dropped before this is read). -/
def rowPrice (sp : SchedRow × PlanRow) : ℚ := sp.1.bid_cap.getD 0

/-- The `for idx, row in cand.iterrows()` greedy loop, carrying
`(remaining, per_plan_used, taken)`. -/
def allocLoop :
    List (SchedRow × PlanRow) → ℚ → List ((String × String × ℤ) × ℤ) →
      List (SchedRow × PlanRow) →
      ℚ × List ((String × String × ℤ) × ℤ) × List (SchedRow × PlanRow)
  | [], rem, used, taken => (rem, used, taken)
  | r :: rs, rem, used, taken =>
    if r.2.target_units ≤ (alookup (rowKey r) used).getD 0 then
      allocLoop rs rem used taken
    else if rowPrice r ≤ rem then
      allocLoop rs (rem - rowPrice r)
        (aset (rowKey r) ((alookup (rowKey r) used).getD 0 + 1) used)
        (taken ++ [r])
    else allocLoop rs rem used taken

/-- Function `allocate`: merge, drop rows with no cap, sort ascending by cap price,
then walk greedily.  Returns `(remaining budget, per_plan_used, taken)`. -/
def allocate (sched : List SchedRow) (plans : List PlanRow) (budget : ℚ) :
    ℚ × List ((String × String × ℤ) × ℤ) × List (SchedRow × PlanRow) :=
  allocLoop
    (((mergeCandidates sched plans).filter
        (fun sp => sp.1.bid_cap.isSome)).insertionSort
      (fun a b => rowPrice a ≤ rowPrice b))
    budget [] []

/-- One entry of the returned `auction_list` (vehicle-identity fields). -/
structure AuctionOut where
  auction_house : String
  listing_id : String
  max_bid_price : ℤ
  brand : String
  model : String
  year : ℤ
deriving DecidableEq, Repr

/-- The JSON `auction_list`: `max_bid_price = int(round(float(price)))`. -/
def auctionList (taken : List (SchedRow × PlanRow)) : List AuctionOut :=
  taken.map (fun sp =>
    ⟨sp.1.auction_house, sp.1.listing_id, npRound (rowPrice sp),
      sp.1.brand, sp.1.model, sp.1.year⟩)

/-- Source expression `total_expected_cost = int(sum(...))` over the auction list. -/
def totalExpectedCost (outs : List AuctionOut) : ℤ :=
  (outs.map (·.max_bid_price)).sum

/-- The sum of the unrounded cap prices the greedy loop charges. -/
def sumPrices (taken : List (SchedRow × PlanRow)) : ℚ :=
  (taken.map rowPrice).sum

/-- The number of accepted rows in category `k`. -/
def countKey (taken : List (SchedRow × PlanRow))
    (k : String × String × ℤ) : ℤ :=
  ((taken.filter (fun sp => decide (rowKey sp = k))).length : ℤ)

theorem countKey_append_single (taken : List (SchedRow × PlanRow))
    (r : SchedRow × PlanRow) (k : String × String × ℤ) :
    countKey (taken ++ [r]) k =
      countKey taken k + (if rowKey r = k then 1 else 0) := by
  unfold countKey
  rw [List.filter_append]
  by_cases h : rowKey r = k
  · rw [if_pos h]
    simp [h]
  · rw [if_neg h]
    simp [h]

theorem mem_mergeCandidates {sched : List SchedRow} {plans : List PlanRow}
    {sp : SchedRow × PlanRow} (h : sp ∈ mergeCandidates sched plans) :
    sp.1 ∈ sched ∧ sp.2 ∈ plans ∧ planKey sp.2 = rowKey sp := by
  unfold mergeCandidates at h
  rw [List.mem_flatMap] at h
  obtain ⟨s, hs, hmap⟩ := h
  rw [List.mem_map] at hmap
  obtain ⟨p, hp, heq⟩ := hmap
  subst heq
  have hp' := List.mem_filter.mp hp
  obtain ⟨hb, hm, hy⟩ := of_decide_eq_true hp'.2
  exact ⟨hs, hp'.1, by
    unfold planKey rowKey
    rw [hb, hm, hy]⟩

theorem inj_planKey_of_nodup {plans : List PlanRow}
    (hnd : (plans.map planKey).Nodup) {p q : PlanRow}
    (hp : p ∈ plans) (hq : q ∈ plans) (hk : planKey p = planKey q) :
    p = q :=
  List.inj_on_of_nodup_map hnd hp hq hk

theorem allocLoop_spec {plans : List PlanRow}
    (hnd : (plans.map planKey).Nodup) :
    ∀ (rs : List (SchedRow × PlanRow)) (rem : ℚ)
      (used : List ((String × String × ℤ) × ℤ))
      (taken : List (SchedRow × PlanRow)),
      (∀ sp ∈ rs, sp.2 ∈ plans ∧ planKey sp.2 = rowKey sp) →
      0 ≤ rem →
      (∀ k, (alookup k used).getD 0 = countKey taken k) →
      (∀ p ∈ plans, countKey taken (planKey p) ≤ p.target_units) →
      (∀ sp ∈ taken, sp.2 ∈ plans ∧ planKey sp.2 = rowKey sp) →
      0 ≤ (allocLoop rs rem used taken).1 ∧
      sumPrices (allocLoop rs rem used taken).2.2 +
          (allocLoop rs rem used taken).1 = sumPrices taken + rem ∧
      (∀ p ∈ plans, countKey (allocLoop rs rem used taken).2.2 (planKey p) ≤
        p.target_units) ∧
      (∀ sp ∈ (allocLoop rs rem used taken).2.2,
        sp.2 ∈ plans ∧ planKey sp.2 = rowKey sp)
  | [], rem, used, taken => by
    intro _ hrem _ hcount htaken
    exact ⟨hrem, rfl, hcount, htaken⟩
  | r :: rs, rem, used, taken => by
    intro hrs hrem hused hcount htaken
    have hr := hrs r (List.mem_cons_self ..)
    have hrs' : ∀ sp ∈ rs, sp.2 ∈ plans ∧ planKey sp.2 = rowKey sp :=
      fun sp hsp => hrs sp (List.mem_cons_of_mem _ hsp)
    rw [allocLoop]
    split
    next =>
      exact allocLoop_spec hnd rs rem used taken hrs' hrem hused hcount htaken
    next hcap =>
      split
      next hpr =>
        -- accepted: budget consumed, count bumped
        have hrem' : 0 ≤ rem - rowPrice r := sub_nonneg.mpr hpr
        have hused' : ∀ k,
            (alookup k (aset (rowKey r)
              ((alookup (rowKey r) used).getD 0 + 1) used)).getD 0 =
              countKey (taken ++ [r]) k := by
          intro k
          rw [alookup_aset, countKey_append_single, ← hused k]
          by_cases hk : rowKey r = k
          · rw [if_pos hk, if_pos hk, Option.getD_some, ← hk, hused,
              ← hused (rowKey r), hk]
          · rw [if_neg hk, if_neg hk, add_zero]
        have hcount' : ∀ p ∈ plans,
            countKey (taken ++ [r]) (planKey p) ≤ p.target_units := by
          intro p hp
          rw [countKey_append_single]
          by_cases hk : rowKey r = planKey p
          · have hpr2 : p = r.2 :=
              inj_planKey_of_nodup hnd hp hr.1 (hk ▸ hr.2).symm
            rw [if_pos hk]
            have : countKey taken (rowKey r) <  r.2.target_units := by
              rw [← hused (rowKey r)]
              exact lt_of_not_le hcap
            rw [hpr2, hr.2]
            omega
          · rw [if_neg hk, add_zero]
            exact hcount p hp
        have htaken' : ∀ sp ∈ taken ++ [r],
            sp.2 ∈ plans ∧ planKey sp.2 = rowKey sp := by
          intro sp hsp
          rcases List.mem_append.mp hsp with h | h
          · exact htaken sp h
          · rw [List.mem_singleton] at h
            subst h
            exact hr
        obtain ⟨g1, g2, g3, g4⟩ := allocLoop_spec hnd rs (rem - rowPrice r) _
          (taken ++ [r]) hrs' hrem' hused' hcount' htaken'
        refine ⟨g1, ?_, g3, g4⟩
        rw [g2]
        unfold sumPrices
        rw [List.map_append, List.sum_append]
        simp only [List.map_cons, List.map_nil, List.sum_cons, List.sum_nil]
        ring
      next =>
        exact allocLoop_spec hnd rs rem used taken hrs' hrem hused
          hcount htaken

/-- C1 (amended): for nonnegative budget, distinct plan categories and
nonnegative targets, the greedy allocator's accepted rows satisfy: the sum of
the **unrounded** cap prices charged against the budget is `≤ budget` (the
reported `max_bid_price` is that price rounded to an integer, whose sum can
exceed the budget — see the counterexample); for every plan the number of
accepted rows of its category is `≤ target_units`; and every returned
`auction_list` entry matches some purchase plan exactly on brand, model and
year. -/
theorem C1_allocator_bounds (sched : List SchedRow) (plans : List PlanRow)
    (budget : ℚ) (hb : 0 ≤ budget) (hnd : (plans.map planKey).Nodup)
    (ht : ∀ p ∈ plans, 0 ≤ p.target_units) :
    sumPrices (allocate sched plans budget).2.2 ≤ budget ∧
    (∀ p ∈ plans, countKey (allocate sched plans budget).2.2 (planKey p) ≤
      p.target_units) ∧
    (∀ o ∈ auctionList (allocate sched plans budget).2.2,
      ∃ p ∈ plans, o.brand = p.brand ∧ o.model = p.model ∧
        o.year = p.year) := by
  have hsorted : ∀ sp ∈ ((mergeCandidates sched plans).filter
      (fun sp => sp.1.bid_cap.isSome)).insertionSort
        (fun a b => rowPrice a ≤ rowPrice b),
      sp.2 ∈ plans ∧ planKey sp.2 = rowKey sp := by
    intro sp hsp
    have := List.mem_of_mem_filter ((List.mem_insertionSort _).mp hsp)
    obtain ⟨-, h2, h3⟩ := mem_mergeCandidates this
    exact ⟨h2, h3⟩
  have h0 : ∀ k, (alookup k
      ([] : List ((String × String × ℤ) × ℤ))).getD 0 = countKey [] k := by
    intro k
    rfl
  obtain ⟨g1, g2, g3, g4⟩ := allocLoop_spec hnd _ budget [] [] hsorted hb h0
    (by
      intro p hp
      exact le_trans (le_refl 0) (ht p hp))
    (by intro sp hsp; exact absurd hsp (List.not_mem_nil sp))
  refine ⟨?_, g3, ?_⟩
  · have := g2
    unfold allocate
    unfold sumPrices at this ⊢
    simp only [List.map_nil, List.sum_nil, zero_add] at this
    linarith [g1]
  · intro o ho
    unfold allocate at ho
    unfold auctionList at ho
    rw [List.mem_map] at ho
    obtain ⟨sp, hsp, heq⟩ := ho
    subst heq
    obtain ⟨hp, hkey⟩ := g4 sp hsp
    refine ⟨sp.2, hp, ?_, ?_, ?_⟩ <;>
      simp only [planKey, rowKey, Prod.mk.injEq] at hkey
    · exact hkey.1.symm
    · exact hkey.2.1.symm
    · exact hkey.2.2.symm

/-- Schedule for the C1 counterexample: three identical items with fractional
cap price `0.6`. -/
def c1Sched : List SchedRow :=
  [⟨"b", "m", 2020, some (3/5), "h", "L1"⟩,
   ⟨"b", "m", 2020, some (3/5), "h", "L2"⟩,
   ⟨"b", "m", 2020, some (3/5), "h", "L3"⟩]

/-- Purchase plan for the C1 counterexample. -/
def c1Plans : List PlanRow := [⟨"b", "m", 2020, 16⟩]

/-- C1 (counterexample to the claim as stated): with budget `2` the greedy
loop accepts all three items, charging `3 × 0.6 = 1.8 ≤ 2` against the
budget, but each returned `max_bid_price` is `int(round(0.6)) = 1`, so the
sum of the accepted items' `max_bid_price` is `3 > 2` — the reported rounded
prices can exceed the budget. -/
theorem C1_counterexample :
    (allocate c1Sched c1Plans 2).2.2.length = 3 ∧
    sumPrices (allocate c1Sched c1Plans 2).2.2 = 9/5 ∧
    totalExpectedCost (auctionList (allocate c1Sched c1Plans 2).2.2) = 3 ∧
    ¬ totalExpectedCost (auctionList (allocate c1Sched c1Plans 2).2.2) ≤ 2 := by
  refine ⟨?_, ?_, ?_, ?_⟩ <;> with_unfolding_all decide

/-- Witness for `C1_allocator_bounds` at a concrete schedule and plan. -/
theorem C1_allocator_bounds_witness :
    sumPrices (allocate [⟨"b", "m", 2020, some 5, "h", "L1"⟩]
      [⟨"b", "m", 2020, 2⟩] 10).2.2 ≤ 10 :=
  (C1_allocator_bounds [⟨"b", "m", 2020, some 5, "h", "L1"⟩]
    [⟨"b", "m", 2020, 2⟩] 10 (by norm_num) (by simp)
    (by
      intro p hp
      rw [List.mem_singleton] at hp
      subst hp
      decide)).1

end WhatLunch
